import Mathlib

/-!
# Kadastr aggregation pipeline

A shallow embedding of `kadastr_gui_fyne.go`: type coercion (`parseFloatFlexible`,
`toFloat`, `toInt`, `toString`), the classifier (`translitLower`, `okedQosh`), the
delimited-text loader (`readCSV`), grouped summation (`groupSum`) and the enrichment,
period and row materialisation steps of the `runBtn` callback in `main`.

Conventions of the embedding:

* a Go `string` is a Lean `String`; the Go runtime works on the UTF-8 bytes, the model on
  the code points, which agree for every valid UTF-8 string (byte order of UTF-8 is code
  point order, and every ASCII test of the library looks at one-byte characters only);
* a Go `float64` is `F64`: a finite value carried as its exact reduced fraction with a
  sign (so that `-0` exists), the two infinities and NaN; arithmetic rounds to the nearest
  binary64 value, ties to even;
* a Go `int` is a Lean `Int` (`%` and `/` truncate toward zero: `Int.tmod`, `Int.tdiv`);
* a Go `map` whose only use is lookup and update (`rec`) is an association list read
  through `lookup`; the bucket map returned by `groupSum` is an association list with
  one entry per key, in order of first insertion;
* a Go map is a reference and can be nil. The functions that only read a record
  (`toFloat`, `toInt`, `toString`, `groupSum`) take the association list, since a nil map
  reads as the empty map; the enrichment loop stores into the record and takes a
  `MapRef`, on which a store into the nil map is the run-time panic;
* the case tables of package `unicode` are data of the Go toolchain, not of this program:
  the lookup in them is a parameter `tbl` of `toLowerRune` and of what calls it, and
  `unicodeLower` is that lookup for the mappings of the Unicode Character Database.
-/

namespace Kadastr

/-! ## float64 -/

/-- A `float64` value. `fin neg num den` is the finite value `±num/den`. -/
inductive F64 where
  | fin (neg : Bool) (num den : Nat)
  | inf (neg : Bool)
  | nan
deriving DecidableEq, Repr

namespace F64

/-- Positive zero, the zero value of `float64`. -/
def zero : F64 := .fin false 0 1

/-- The `float64` holding the natural number `n` exactly (for `n < 2^53`). -/
def ofNat (n : Nat) : F64 := .fin false n 1

/-- Number of binary digits of `n`, by repeated halving (`fuel` bounds the steps). -/
def bitLenAux : Nat → Nat → Nat
  | 0, _ => 0
  | fuel + 1, n => if n = 0 then 0 else bitLenAux fuel (n / 2) + 1

/-- Number of binary digits of `n`. -/
def bitLen (n : Nat) : Nat := bitLenAux n n

/-- Numerator and denominator of `(n / d) / 2^e`. -/
def scaled (n d : Nat) (e : Int) : Nat × Nat :=
  if 0 ≤ e then (n, d * 2 ^ e.toNat) else (n * 2 ^ (-e).toNat, d)

/-- Nearest natural number to `n / d`, ties to even. -/
def roundHalfEven (n d : Nat) : Nat :=
  let q := n / d
  let r := n % d
  if 2 * r < d then q else if d < 2 * r then q + 1 else if q % 2 = 0 then q else q + 1

/-- The binary exponent `e` of the binary64 grid around `n / d`: `2^52 ≤ (n/d)/2^e < 2^53`,
but never below the subnormal exponent `-1074`. -/
def binExp (n d : Nat) : Int :=
  let k : Int := (bitLen n : Int) - (bitLen d : Int)
  let ab := scaled n d k
  let e : Int := if ab.2 ≤ ab.1 then k - 52 else k - 53
  max e (-1074)

/-- Reduced fraction `n / d` with sign. -/
def mkFin (neg : Bool) (n d : Nat) : F64 :=
  let g := Nat.gcd n d
  .fin neg (n / g) (d / g)

/-- Round the exact magnitude `n / d` (`0 < d`) to binary64, round-to-nearest-even.
The flag reports overflow, in which case the value is the infinity of that sign. -/
def round64 (neg : Bool) (n d : Nat) : F64 × Bool :=
  if n = 0 then (.fin neg 0 1, false)
  else
    let e := binExp n d
    let ab := scaled n d e
    let m := roundHalfEven ab.1 ab.2
    if 971 < e ∨ (e = 971 ∧ m = 2 ^ 53) then (.inf neg, true)
    else
      let pq := scaled m 1 (-e)
      (mkFin neg pq.1 pq.2, false)

/-- IEEE addition: Go's `+` on `float64`. -/
def add : F64 → F64 → F64
  | .nan, _ => .nan
  | _, .nan => .nan
  | .inf a, .inf b => if a = b then .inf a else .nan
  | .inf a, .fin _ _ _ => .inf a
  | .fin _ _ _, .inf b => .inf b
  | .fin s1 n1 d1, .fin s2 n2 d2 =>
    let a : Int := (if s1 then -1 else 1) * (n1 * d2 : Nat) + (if s2 then -1 else 1) * (n2 * d1 : Nat)
    if a = 0 then .fin (s1 && s2) 0 1
    else (round64 (decide (a < 0)) a.natAbs (d1 * d2)).1

/-- IEEE division: Go's `/` on `float64`. -/
def div : F64 → F64 → F64
  | .nan, _ => .nan
  | _, .nan => .nan
  | .inf _, .inf _ => .nan
  | .inf a, .fin s _ _ => .inf (xor a s)
  | .fin s _ _, .inf b => .fin (xor s b) 0 1
  | .fin s1 n1 d1, .fin s2 n2 d2 =>
    if n2 = 0 then (if n1 = 0 then .nan else .inf (xor s1 s2))
    else (round64 (xor s1 s2) (n1 * d2) (d1 * n2)).1

/-- Go's conversion `int(t)` of a `float64`: truncation toward zero; a value outside the
`int64` range (or NaN) gives the most negative `int64`, as the amd64 instruction does. -/
def toInt : F64 → Int
  | .fin s n d =>
    let q : Int := ((n / d : Nat) : Int)
    let i : Int := if s then -q else q
    if -(2 ^ 63 : Int) ≤ i ∧ i < (2 ^ 63 : Int) then i else -(2 ^ 63 : Int)
  | _ => -(2 ^ 63 : Int)

end F64

/-! ## Character classes and the string helpers of `strings` -/

/-- An ASCII decimal digit. -/
def isDigit (c : Char) : Bool := decide (48 ≤ c.toNat ∧ c.toNat ≤ 57)

/-- Value of a decimal digit. -/
def digitVal (c : Char) : Nat := c.toNat - 48

/-- A hexadecimal letter: `'a' <= lower(c) && lower(c) <= 'f'` with `lower(c) = c | 0x20`. -/
def isHexLetter (c : Char) : Bool :=
  decide ((97 ≤ c.toNat ∧ c.toNat ≤ 102) ∨ (65 ≤ c.toNat ∧ c.toNat ≤ 70))

/-- Value of a hexadecimal letter: `lower(c) - 'a' + 10`. -/
def hexLetterVal (c : Char) : Nat := if 97 ≤ c.toNat then c.toNat - 87 else c.toNat - 55

/-- Lower-casing of `'A'..'Z'` as `commonPrefixLenIgnoreCase` does it. -/
def lowerAscii (c : Char) : Char :=
  if 65 ≤ c.toNat ∧ c.toNat ≤ 90 then Char.ofNat (c.toNat + 32) else c

/-- Go's `unicode.IsSpace`. -/
def isSpace (c : Char) : Bool :=
  let n := c.toNat
  decide ((9 ≤ n ∧ n ≤ 13) ∨ n = 0x20 ∨ n = 0x85 ∨ n = 0xA0 ∨ n = 0x1680 ∨
    (0x2000 ≤ n ∧ n ≤ 0x200A) ∨ n = 0x2028 ∨ n = 0x2029 ∨ n = 0x202F ∨ n = 0x205F ∨
    n = 0x3000)

/-- Go's `strings.TrimSpace` on the characters of a string. -/
def trimSpaceChars (l : List Char) : List Char :=
  ((l.dropWhile isSpace).reverse.dropWhile isSpace).reverse

/-- Go's `strings.ReplaceAll(t, string(c), "")` on the characters of a string. -/
def removeAllChars (c : Char) (l : List Char) : List Char :=
  l.filter (fun x => x != c)

/-- Go's `strings.TrimSpace`. -/
def trimSpace (s : String) : String := ⟨trimSpaceChars s.data⟩

/-! ## `strconv`: number parsing -/

/-- The errors the coercions can see: `strconv.ErrSyntax`, `strconv.ErrRange`,
`errors.New("empty")` and `fmt.Errorf("unsupported %T", v)`. -/
inductive NumErr where
  | malformed
  | outOfRange
  | emptyInput
  | unsupported
deriving DecidableEq, Repr

/-- Go's `commonPrefixLenIgnoreCase(s, prefix)` for a lower-case `prefix`. -/
def commonPrefixLenIgnoreCase : List Char → List Char → Nat
  | c :: s, p :: ps => if lowerAscii c = p then commonPrefixLenIgnoreCase s ps + 1 else 0
  | _, _ => 0

/-- The `'i', 'I'` arm of `special`: an infinity, with the number of characters read. -/
def specialInf (neg : Bool) (nsign : Nat) (s : List Char) : Option (F64 × Nat) :=
  let n := commonPrefixLenIgnoreCase s "infinity".data
  let n := if 3 < n ∧ n < 8 then 3 else n
  if n = 3 ∨ n = 8 then some (.inf neg, nsign + n) else none

/-- Go's `strconv.special`: the words `inf`, `infinity` (optionally signed) and `nan`. -/
def special (s : List Char) : Option (F64 × Nat) :=
  match s with
  | [] => none
  | c :: rest =>
    if c = '+' ∨ c = '-' then specialInf (c = '-') 1 rest
    else if c = 'i' ∨ c = 'I' then specialInf false 0 s
    else if c = 'n' ∨ c = 'N' then
      (if commonPrefixLenIgnoreCase s "nan".data = 3 then some (.nan, 3) else none)
    else none

/-- State of the mantissa loop of `readFloat`. The mantissa is kept exactly (Go keeps 19
digits and re-reads the text when they do not decide the rounding, so that its result is
the correctly rounded value of all digits). -/
structure Mant where
  mant : Nat
  nd : Nat
  dp : Int
  sawdot : Bool
  sawdigits : Bool
  underscores : Bool
deriving DecidableEq, Repr

/-- The mantissa loop of `readFloat`; returns the state and the unread rest. -/
def readMant (hex : Bool) : List Char → Mant → Mant × List Char
  | [], st => (st, [])
  | c :: cs, st =>
    if c = '_' then readMant hex cs ⟨st.mant, st.nd, st.dp, st.sawdot, st.sawdigits, true⟩
    else if c = '.' then
      if st.sawdot then (st, c :: cs)
      else readMant hex cs ⟨st.mant, st.nd, (st.nd : Int), true, st.sawdigits, st.underscores⟩
    else if isDigit c then
      if c = '0' ∧ st.nd = 0 then
        readMant hex cs ⟨st.mant, st.nd, st.dp - 1, st.sawdot, true, st.underscores⟩
      else
        readMant hex cs
          ⟨st.mant * (if hex then 16 else 10) + digitVal c, st.nd + 1, st.dp, st.sawdot, true,
            st.underscores⟩
    else if hex ∧ isHexLetter c then
      readMant hex cs ⟨st.mant * 16 + hexLetterVal c, st.nd + 1, st.dp, st.sawdot, true,
        st.underscores⟩
    else (st, c :: cs)

/-- The exponent digit loop of `readFloat` (`if e < 10000 { e = e*10 + digit }`). -/
def readExpDigits : List Char → Nat → Bool → Nat × Bool × List Char
  | [], e, u => (e, u, [])
  | c :: cs, e, u =>
    if c = '_' then readExpDigits cs e true
    else if isDigit c then readExpDigits cs (if e < 10000 then e * 10 + digitVal c else e) u
    else (e, u, c :: cs)

/-- What `readFloat` returns: the value is `±mant * 10^exp`, or `±mant * 2^exp` when `hex`. -/
structure FloatLit where
  mant : Nat
  exp : Int
  neg : Bool
  hex : Bool
deriving DecidableEq, Repr

/-- Go's `strconv.readFloat`: the literal, whether an underscore was seen, and the unread
rest; `none` when `ok` is false. -/
def readFloat (s : List Char) : Option (FloatLit × Bool × List Char) :=
  match s with
  | [] => none
  | c :: cs =>
    let neg : Bool := c = '-'
    let s1 := if c = '+' ∨ c = '-' then cs else s
    let hex : Bool :=
      match s1 with
      | a :: b :: _ :: _ => a = '0' ∧ (b = 'x' ∨ b = 'X')
      | _ => false
    let r := readMant hex (if hex then s1.drop 2 else s1) ⟨0, 0, 0, false, false, false⟩
    let st := r.1
    if !st.sawdigits then none
    else
      let dp0 : Int := if st.sawdot then st.dp else (st.nd : Int)
      let dp : Int := if hex then dp0 * 4 else dp0
      let ndMant : Int := if hex then 4 * (st.nd : Int) else (st.nd : Int)
      match r.2 with
      | [] => if hex then none else some (⟨st.mant, dp - ndMant, neg, hex⟩, st.underscores, [])
      | x :: s4 =>
        if (if hex then (x = 'p' ∨ x = 'P') else (x = 'e' ∨ x = 'E')) then
          match s4 with
          | [] => none
          | y :: s5 =>
            let s6 := if y = '+' ∨ y = '-' then s5 else s4
            match s6 with
            | [] => none
            | z :: _ =>
              if !isDigit z then none
              else
                let er := readExpDigits s6 0 st.underscores
                let e : Int := if y = '-' then -(er.1 : Int) else (er.1 : Int)
                some (⟨st.mant, dp + e - ndMant, neg, hex⟩, er.2.1, er.2.2)
        else if hex then none
        else some (⟨st.mant, dp - ndMant, neg, hex⟩, st.underscores, x :: s4)

/-- The loop of `underscoreOK`; `saw` is the last class of character seen. -/
def underscoreOKLoop (hex : Bool) : List Char → Char → Bool
  | [], saw => saw != '_'
  | c :: cs, saw =>
    if isDigit c ∨ (hex ∧ isHexLetter c) then underscoreOKLoop hex cs '0'
    else if c = '_' then (if saw != '0' then false else underscoreOKLoop hex cs '_')
    else if saw = '_' then false
    else underscoreOKLoop hex cs '!'

/-- Go's `strconv.underscoreOK`: underscores only between digits (or after a base prefix). -/
def underscoreOK (s : List Char) : Bool :=
  let s1 := match s with
    | c :: cs => if c = '-' ∨ c = '+' then cs else s
    | [] => s
  match s1 with
  | a :: b :: rest =>
    if a = '0' ∧ (b = 'b' ∨ b = 'B' ∨ b = 'o' ∨ b = 'O' ∨ b = 'x' ∨ b = 'X') then
      underscoreOKLoop (b = 'x' ∨ b = 'X') rest '0'
    else underscoreOKLoop false s1 '^'
  | _ => underscoreOKLoop false s1 '^'

/-- The correctly rounded `float64` of a literal, and whether it overflowed. -/
def FloatLit.value (l : FloatLit) : F64 × Bool :=
  if l.mant = 0 then (.fin l.neg 0 1, false)
  else if 0 ≤ l.exp then
    F64.round64 l.neg (l.mant * (if l.hex then 2 else 10) ^ l.exp.toNat) 1
  else F64.round64 l.neg l.mant ((if l.hex then 2 else 10) ^ (-l.exp).toNat)

/-- Go's `strconv.ParseFloat(s, 64)` on the characters of `s`: the value and the error.
A syntax error comes with the value `0`, a range error with the infinity of the sign. -/
def parseFloatChars (s : List Char) : F64 × Option NumErr :=
  match special s with
  | some (v, n) => if n = s.length then (v, none) else (F64.zero, some .malformed)
  | none =>
    match readFloat s with
    | none => (F64.zero, some .malformed)
    | some (lit, u, rest) =>
      if u ∧ !underscoreOK (s.take (s.length - rest.length)) then (F64.zero, some .malformed)
      else if rest ≠ [] then (F64.zero, some .malformed)
      else
        let v := lit.value
        (v.1, if v.2 then some .outOfRange else none)

/-- Go's `strconv.ParseFloat(s, 64)`. -/
def parseFloat (s : String) : F64 × Option NumErr := parseFloatChars s.data

/-- The loop of `strconv.ParseUint(s, 10, 64)`: a non-digit is a syntax error (value 0),
an overflow a range error (value `2^64 - 1`), reported at the digit where it happens. -/
def parseUintLoop : List Char → Nat → Nat × Option NumErr
  | [], n => (n, none)
  | c :: cs, n =>
    if !isDigit c then (0, some .malformed)
    else if (2 ^ 64 - 1) / 10 + 1 ≤ n then (2 ^ 64 - 1, some .outOfRange)
    else if 2 ^ 64 - 1 < n * 10 + digitVal c then (2 ^ 64 - 1, some .outOfRange)
    else parseUintLoop cs (n * 10 + digitVal c)

/-- Go's `strconv.ParseInt(s, 10, 64)` on the characters of `s`: the value and the error.
A syntax error comes with 0, a range error with the nearest `int64` bound. -/
def parseIntChars (s : List Char) : Int × Option NumErr :=
  match s with
  | [] => (0, some .malformed)
  | c :: cs =>
    let body := if c = '+' ∨ c = '-' then cs else s
    if body = [] then (0, some .malformed)
    else
      let r := parseUintLoop body 0
      if r.2 = some .malformed then (0, some .malformed)
      else if c ≠ '-' ∧ 2 ^ 63 ≤ r.1 then ((2 ^ 63 - 1 : Int), some .outOfRange)
      else if c = '-' ∧ 2 ^ 63 < r.1 then (-(2 ^ 63 : Int), some .outOfRange)
      else (if c = '-' then -(r.1 : Int) else (r.1 : Int), none)

/-- Go's `strconv.ParseInt(s, 10, 64)`. -/
def parseInt (s : String) : Int × Option NumErr := parseIntChars s.data

/-- Go's `strconv.Atoi` on a 64-bit platform: `ParseInt(s, 10, 0)` (its fast path for
short inputs computes the same value and the same error kind). -/
def atoi (s : String) : Int × Option NumErr := parseIntChars s.data

/-! ## `fmt`: the `%v` verb -/

/-- Number of decimal digits of `n` (0 for 0), by repeated division. -/
def decLenAux : Nat → Nat → Nat
  | 0, _ => 0
  | fuel + 1, n => if n = 0 then 0 else decLenAux fuel (n / 10) + 1

/-- Number of decimal digits of `n`. -/
def decLen (n : Nat) : Nat := decLenAux n n

/-- Numerator and denominator of `(n / d) / 10^e`. -/
def scaled10 (n d : Nat) (e : Int) : Nat × Nat :=
  if 0 ≤ e then (n, d * 10 ^ e.toNat) else (n * 10 ^ (-e).toNat, d)

/-- The decimal point position `dp` of `n / d`: `10^(dp-1) ≤ n/d < 10^dp`. -/
def decPoint (n d : Nat) : Int :=
  let k : Int := (decLen n : Int) - (decLen d : Int)
  let ab := scaled10 n d k
  if ab.2 ≤ ab.1 then k + 1 else k

/-- Whether the decimal `c * 10^e` reads back (`ParseFloat`) as the float `n / d`. -/
def readsBack (n d c : Nat) (e : Int) : Bool :=
  let cd := scaled10 c 1 (-e)
  (F64.round64 false cd.1 cd.2).1 = F64.mkFin false n d

/-- Shortest decimal `c * 10^e` that reads back as the float `n / d`, trying `k`, `k+1`, ...
digits; of the two `k`-digit neighbours the one nearer to `n / d` wins. -/
def shortestAux (n d : Nat) (dp : Int) : Nat → Nat → Nat × Int
  | 0, k => ((scaled10 n d (dp - k)).1 / (scaled10 n d (dp - k)).2, dp - k)
  | fuel + 1, k =>
    let ab := scaled10 n d (dp - k)
    let lo := ab.1 / ab.2
    let r := ab.1 % ab.2
    if r = 0 then (lo, dp - k)
    else if readsBack n d lo (dp - k) ∧ readsBack n d (lo + 1) (dp - k) then
      (if 2 * r < ab.2 then lo else if ab.2 < 2 * r then lo + 1
        else if lo % 2 = 0 then lo else lo + 1, dp - k)
    else if readsBack n d lo (dp - k) then (lo, dp - k)
    else if readsBack n d (lo + 1) (dp - k) then (lo + 1, dp - k)
    else shortestAux n d dp fuel (k + 1)

/-- Drop the trailing zeros of a digit list. -/
def stripZeros (l : List Char) : List Char := (l.reverse.dropWhile (fun c => c = '0')).reverse

/-- The exponent of the `%e` form: sign and at least two digits. -/
def fmtExp (e : Int) : List Char :=
  (if e < 0 then '-' else '+') :: (if e.natAbs < 10 then '0' :: (Nat.repr e.natAbs).data
    else (Nat.repr e.natAbs).data)

/-- The digit of `ds` at position `i`, `'0'` outside of it. -/
def digitAt (ds : List Char) (i : Int) : Char :=
  if 0 ≤ i then ds.getD i.toNat '0' else '0'

/-- Go's `strconv.FormatFloat(f, 'g', -1, 64)` for a positive finite `n / d`: shortest
digits; `%e` form when the decimal exponent is below -4 or at least 6 (`eprec` is 6 for the
shortest form), else `%f` form. -/
def formatPos (n d : Nat) : List Char :=
  let dp0 := decPoint n d
  let ce := shortestAux n d dp0 17 1
  let all := (Nat.repr ce.1).data
  let ds := stripZeros all
  let dp : Int := (all.length : Int) + ce.2
  let x := dp - 1
  if x < -4 ∨ 6 ≤ x then
    match ds with
    | [] => ['0']
    | c :: rest => (c :: (if rest = [] then [] else '.' :: rest)) ++ ('e' :: fmtExp x)
  else
    (if 0 < dp then (List.range dp.toNat).map (fun i => digitAt ds i) else ['0']) ++
      (if dp < (ds.length : Int) then
        '.' :: (List.range ((ds.length : Int) - dp).toNat).map (fun i => digitAt ds (dp + i))
       else [])

/-- Go's `%v` of a `float64`. -/
def formatFloat : F64 → String
  | .nan => "NaN"
  | .inf neg => if neg then "-Inf" else "+Inf"
  | .fin neg n d =>
    if n = 0 then (if neg then "-0" else "0")
    else ⟨(if neg then ['-'] else []) ++ formatPos n d⟩

/-! ## Records -/

/-- A value of type `any` as a record can hold it: what the loaders produce (`string` from
CSV; `float64`, `json.Number`, `string`, `bool`, `nil` and arrays / objects from JSON) and
the native `int` that the enrichment step stores. An array or object is carried as its
`%v` rendering, the only thing the pipeline observes of it. -/
inductive Val where
  | float (f : F64)
  | number (s : String)
  | str (s : String)
  | int (i : Int)
  | bool (b : Bool)
  | null
  | composite (shown : String)
deriving DecidableEq, Repr

/-- The Go type `rec` (`map[string]any`): an association list read through `List.lookup`. -/
abbrev rec := List (String × Val)

/-- The map store `m[k] = v`. -/
def rec.set (m : rec) (k : String) (v : Val) : rec :=
  (k, v) :: m.filter (fun p => p.1 != k)

/-- A value of the Go type `rec` as a loader hands it over. A Go map is a reference:
`json.Unmarshal` and `Decoder.Decode` leave the nil map for a JSON `null` (a line `null`
of a JSON-lines file, an element `null` of the array), while `readCSV` makes every record
with `rec{}`. -/
inductive MapRef where
  | nilMap
  | map (m : Kadastr.rec)
deriving DecidableEq, Repr

/-- What a read (`m[k]`, `v, ok := m[k]`, `range m`) sees of a map reference: the nil map
reads as the empty map. -/
def MapRef.entries : MapRef → Kadastr.rec
  | .nilMap => []
  | .map m => m

/-- The store `m[k] = v` through a map reference. On the nil map it is the run-time panic
`assignment to entry in nil map`: `none`. -/
def MapRef.store : MapRef → String → Val → Option MapRef
  | .nilMap, _, _ => none
  | .map m, k, v => some (.map (m.set k v))

/-- Go's `fmt.Sprintf("%v", x)` for `x = m[k]`; an absent key reads as the nil interface,
which prints as `<nil>`. -/
def sprintV : Option Val → String
  | none => "<nil>"
  | some .null => "<nil>"
  | some (.float f) => formatFloat f
  | some (.number s) => s
  | some (.str s) => s
  | some (.int i) => if i < 0 then "-" ++ Nat.repr i.natAbs else Nat.repr i.natAbs
  | some (.bool b) => if b then "true" else "false"
  | some (.composite shown) => shown

/-! ## Type coercion -/

/-- The string arm of `parseFloatFlexible`: remove every space, then every comma, then
trim white space. -/
def stripNumber (t : String) : String :=
  ⟨trimSpaceChars (removeAllChars ',' (removeAllChars ' ' t.data))⟩

/-- The function `parseFloatFlexible`: the value and the error it returns. -/
def parseFloatFlexible (v : Val) : F64 × Option NumErr :=
  match v with
  | .float t => (t, none)
  | .number t => parseFloat t
  | .str t =>
    let s := stripNumber t
    if s = "" then (F64.zero, some .emptyInput) else parseFloat s
  | _ => (F64.zero, some .unsupported)

/-- The function `toFloat`. -/
def toFloat (m : rec) (key : String) : F64 :=
  match m.lookup key with
  | none => F64.zero
  | some v => (parseFloatFlexible v).1

/-- The function `toInt`. -/
def toInt (m : rec) (key : String) : Int :=
  match m.lookup key with
  | none => 0
  | some (.float t) => t.toInt
  | some (.number t) => (parseInt t).1
  | some (.str t) => (atoi (trimSpace t)).1
  | some _ => 0

/-- The function `toString`. -/
def toString (m : rec) (key : String) : String :=
  match m.lookup key with
  | none => ""
  | some v => sprintV (some v)

/-! ## Classifier -/

/-- The table `kalitlar`. -/
def kalitlar : List (String × Int) :=
  [("gaz", 350), ("suv", 360), ("kafe", 470), ("market", 470), ("savdo", 470),
   ("kino", 590), ("aloqa", 610), ("pochta", 630), ("maktab", 850), ("stomatolog", 860),
   ("sport", 930)]

/-- Go's `unicode.ToLower`. The ASCII range is decided in code: `A`..`Z` move by 32 and
every other rune up to U+007F is returned as it is. A rune above U+007F is looked up in
the case tables of package `unicode` (`unicode.To(unicode.LowerCase, r)`); the tables
belong to the Go toolchain and grow with each Unicode version, so that lookup is the
parameter `tbl`. -/
def toLowerRune (tbl : Char → Char) (c : Char) : Char :=
  if c.toNat ≤ 127 then
    (if 65 ≤ c.toNat ∧ c.toNat ≤ 90 then Char.ofNat (c.toNat + 32) else c)
  else tbl c

/-- The `switch` of `translitLower` on one rune. -/
def translitRune (ch : Char) : Char :=
  if ch = 'ғ' then 'g'
  else if ch = 'ҳ' then 'h'
  else if ch = 'қ' then 'q'
  else if ch = 'ў' then 'o'
  else ch

/-- The function `translitLower`: `strings.ToLower` maps `unicode.ToLower` over the runes
of the string, then the `switch` is applied to each rune. -/
def translitLower (tbl : Char → Char) (s : String) : String :=
  ⟨(s.data.map (toLowerRune tbl)).map translitRune⟩

/-- Whether `p` is an initial segment of `l`. -/
def startsWith : List Char → List Char → Bool
  | _, [] => true
  | [], _ :: _ => false
  | c :: cs, p :: ps => c = p && startsWith cs ps

/-- Go's `strings.Contains` on the characters: `sub` occurs in `l`. -/
def containsChars : List Char → List Char → Bool
  | [], sub => sub.isEmpty
  | c :: cs, sub => startsWith (c :: cs) sub || containsChars cs sub

/-- Go's `strings.Contains`. -/
def contains (s sub : String) : Bool := containsChars s.data sub.data

/-- The loop of `okedQosh` over the table. -/
def okedScan (l : String) : List (String × Int) → Int
  | [] => 960
  | kv :: rest => if contains l kv.1 then kv.2 else okedScan l rest

/-- The function `okedQosh`. -/
def okedQosh (tbl : Char → Char) (name : String) : Int :=
  okedScan (translitLower tbl name) kalitlar

/-! ### The case table of the Unicode Character Database -/

/-- A run `(lo, hi, step, target)` of lower-case mappings: the code points `lo`,
`lo + step`, ... up to `hi` map to `target`, `target + step`, ... -/
abbrev CaseRun := Nat × Nat × Nat × Nat

/-- The simple lower-case mappings of the Unicode Character Database above U+007F (field
`Simple_Lowercase_Mapping` of `UnicodeData.txt`, version 14.0.0: 1407 code points), as
runs in increasing order. Later versions add case pairs and change none of these. -/
def lowerRuns : List CaseRun :=
  [(0xC0, 0xD6, 1, 0xE0), (0xD8, 0xDE, 1, 0xF8), (0x100, 0x12E, 2, 0x101),
   (0x130, 0x130, 1, 0x69), (0x132, 0x136, 2, 0x133), (0x139, 0x147, 2, 0x13A),
   (0x14A, 0x176, 2, 0x14B), (0x178, 0x178, 1, 0xFF), (0x179, 0x17D, 2, 0x17A),
   (0x181, 0x181, 1, 0x253), (0x182, 0x184, 2, 0x183), (0x186, 0x186, 1, 0x254),
   (0x187, 0x187, 1, 0x188), (0x189, 0x18A, 1, 0x256), (0x18B, 0x18B, 1, 0x18C),
   (0x18E, 0x18E, 1, 0x1DD), (0x18F, 0x18F, 1, 0x259), (0x190, 0x190, 1, 0x25B),
   (0x191, 0x191, 1, 0x192), (0x193, 0x193, 1, 0x260), (0x194, 0x194, 1, 0x263),
   (0x196, 0x196, 1, 0x269), (0x197, 0x197, 1, 0x268), (0x198, 0x198, 1, 0x199),
   (0x19C, 0x19C, 1, 0x26F), (0x19D, 0x19D, 1, 0x272), (0x19F, 0x19F, 1, 0x275),
   (0x1A0, 0x1A4, 2, 0x1A1), (0x1A6, 0x1A6, 1, 0x280), (0x1A7, 0x1A7, 1, 0x1A8),
   (0x1A9, 0x1A9, 1, 0x283), (0x1AC, 0x1AC, 1, 0x1AD), (0x1AE, 0x1AE, 1, 0x288),
   (0x1AF, 0x1AF, 1, 0x1B0), (0x1B1, 0x1B2, 1, 0x28A), (0x1B3, 0x1B5, 2, 0x1B4),
   (0x1B7, 0x1B7, 1, 0x292), (0x1B8, 0x1B8, 1, 0x1B9), (0x1BC, 0x1BC, 1, 0x1BD),
   (0x1C4, 0x1C4, 1, 0x1C6), (0x1C5, 0x1C5, 1, 0x1C6), (0x1C7, 0x1C7, 1, 0x1C9),
   (0x1C8, 0x1C8, 1, 0x1C9), (0x1CA, 0x1CA, 1, 0x1CC), (0x1CB, 0x1DB, 2, 0x1CC),
   (0x1DE, 0x1EE, 2, 0x1DF), (0x1F1, 0x1F1, 1, 0x1F3), (0x1F2, 0x1F4, 2, 0x1F3),
   (0x1F6, 0x1F6, 1, 0x195), (0x1F7, 0x1F7, 1, 0x1BF), (0x1F8, 0x21E, 2, 0x1F9),
   (0x220, 0x220, 1, 0x19E), (0x222, 0x232, 2, 0x223), (0x23A, 0x23A, 1, 0x2C65),
   (0x23B, 0x23B, 1, 0x23C), (0x23D, 0x23D, 1, 0x19A), (0x23E, 0x23E, 1, 0x2C66),
   (0x241, 0x241, 1, 0x242), (0x243, 0x243, 1, 0x180), (0x244, 0x244, 1, 0x289),
   (0x245, 0x245, 1, 0x28C), (0x246, 0x24E, 2, 0x247), (0x370, 0x372, 2, 0x371),
   (0x376, 0x376, 1, 0x377), (0x37F, 0x37F, 1, 0x3F3), (0x386, 0x386, 1, 0x3AC),
   (0x388, 0x38A, 1, 0x3AD), (0x38C, 0x38C, 1, 0x3CC), (0x38E, 0x38F, 1, 0x3CD),
   (0x391, 0x3A1, 1, 0x3B1), (0x3A3, 0x3AB, 1, 0x3C3), (0x3CF, 0x3CF, 1, 0x3D7),
   (0x3D8, 0x3EE, 2, 0x3D9), (0x3F4, 0x3F4, 1, 0x3B8), (0x3F7, 0x3F7, 1, 0x3F8),
   (0x3F9, 0x3F9, 1, 0x3F2), (0x3FA, 0x3FA, 1, 0x3FB), (0x3FD, 0x3FF, 1, 0x37B),
   (0x400, 0x40F, 1, 0x450), (0x410, 0x42F, 1, 0x430), (0x460, 0x480, 2, 0x461),
   (0x48A, 0x4BE, 2, 0x48B), (0x4C0, 0x4C0, 1, 0x4CF), (0x4C1, 0x4CD, 2, 0x4C2),
   (0x4D0, 0x52E, 2, 0x4D1), (0x531, 0x556, 1, 0x561), (0x10A0, 0x10C5, 1, 0x2D00),
   (0x10C7, 0x10C7, 1, 0x2D27), (0x10CD, 0x10CD, 1, 0x2D2D), (0x13A0, 0x13EF, 1, 0xAB70),
   (0x13F0, 0x13F5, 1, 0x13F8), (0x1C90, 0x1CBA, 1, 0x10D0), (0x1CBD, 0x1CBF, 1, 0x10FD),
   (0x1E00, 0x1E94, 2, 0x1E01), (0x1E9E, 0x1E9E, 1, 0xDF), (0x1EA0, 0x1EFE, 2, 0x1EA1),
   (0x1F08, 0x1F0F, 1, 0x1F00), (0x1F18, 0x1F1D, 1, 0x1F10), (0x1F28, 0x1F2F, 1, 0x1F20),
   (0x1F38, 0x1F3F, 1, 0x1F30), (0x1F48, 0x1F4D, 1, 0x1F40), (0x1F59, 0x1F5F, 2, 0x1F51),
   (0x1F68, 0x1F6F, 1, 0x1F60), (0x1F88, 0x1F8F, 1, 0x1F80), (0x1F98, 0x1F9F, 1, 0x1F90),
   (0x1FA8, 0x1FAF, 1, 0x1FA0), (0x1FB8, 0x1FB9, 1, 0x1FB0), (0x1FBA, 0x1FBB, 1, 0x1F70),
   (0x1FBC, 0x1FBC, 1, 0x1FB3), (0x1FC8, 0x1FCB, 1, 0x1F72), (0x1FCC, 0x1FCC, 1, 0x1FC3),
   (0x1FD8, 0x1FD9, 1, 0x1FD0), (0x1FDA, 0x1FDB, 1, 0x1F76), (0x1FE8, 0x1FE9, 1, 0x1FE0),
   (0x1FEA, 0x1FEB, 1, 0x1F7A), (0x1FEC, 0x1FEC, 1, 0x1FE5), (0x1FF8, 0x1FF9, 1, 0x1F78),
   (0x1FFA, 0x1FFB, 1, 0x1F7C), (0x1FFC, 0x1FFC, 1, 0x1FF3), (0x2126, 0x2126, 1, 0x3C9),
   (0x212A, 0x212A, 1, 0x6B), (0x212B, 0x212B, 1, 0xE5), (0x2132, 0x2132, 1, 0x214E),
   (0x2160, 0x216F, 1, 0x2170), (0x2183, 0x2183, 1, 0x2184), (0x24B6, 0x24CF, 1, 0x24D0),
   (0x2C00, 0x2C2F, 1, 0x2C30), (0x2C60, 0x2C60, 1, 0x2C61), (0x2C62, 0x2C62, 1, 0x26B),
   (0x2C63, 0x2C63, 1, 0x1D7D), (0x2C64, 0x2C64, 1, 0x27D), (0x2C67, 0x2C6B, 2, 0x2C68),
   (0x2C6D, 0x2C6D, 1, 0x251), (0x2C6E, 0x2C6E, 1, 0x271), (0x2C6F, 0x2C6F, 1, 0x250),
   (0x2C70, 0x2C70, 1, 0x252), (0x2C72, 0x2C72, 1, 0x2C73), (0x2C75, 0x2C75, 1, 0x2C76),
   (0x2C7E, 0x2C7F, 1, 0x23F), (0x2C80, 0x2CE2, 2, 0x2C81), (0x2CEB, 0x2CED, 2, 0x2CEC),
   (0x2CF2, 0x2CF2, 1, 0x2CF3), (0xA640, 0xA66C, 2, 0xA641), (0xA680, 0xA69A, 2, 0xA681),
   (0xA722, 0xA72E, 2, 0xA723), (0xA732, 0xA76E, 2, 0xA733), (0xA779, 0xA77B, 2, 0xA77A),
   (0xA77D, 0xA77D, 1, 0x1D79), (0xA77E, 0xA786, 2, 0xA77F), (0xA78B, 0xA78B, 1, 0xA78C),
   (0xA78D, 0xA78D, 1, 0x265), (0xA790, 0xA792, 2, 0xA791), (0xA796, 0xA7A8, 2, 0xA797),
   (0xA7AA, 0xA7AA, 1, 0x266), (0xA7AB, 0xA7AB, 1, 0x25C), (0xA7AC, 0xA7AC, 1, 0x261),
   (0xA7AD, 0xA7AD, 1, 0x26C), (0xA7AE, 0xA7AE, 1, 0x26A), (0xA7B0, 0xA7B0, 1, 0x29E),
   (0xA7B1, 0xA7B1, 1, 0x287), (0xA7B2, 0xA7B2, 1, 0x29D), (0xA7B3, 0xA7B3, 1, 0xAB53),
   (0xA7B4, 0xA7C2, 2, 0xA7B5), (0xA7C4, 0xA7C4, 1, 0xA794), (0xA7C5, 0xA7C5, 1, 0x282),
   (0xA7C6, 0xA7C6, 1, 0x1D8E), (0xA7C7, 0xA7C9, 2, 0xA7C8), (0xA7D0, 0xA7D0, 1, 0xA7D1),
   (0xA7D6, 0xA7D8, 2, 0xA7D7), (0xA7F5, 0xA7F5, 1, 0xA7F6), (0xFF21, 0xFF3A, 1, 0xFF41),
   (0x10400, 0x10427, 1, 0x10428), (0x104B0, 0x104D3, 1, 0x104D8),
   (0x10570, 0x1057A, 1, 0x10597), (0x1057C, 0x1058A, 1, 0x105A3),
   (0x1058C, 0x10592, 1, 0x105B3), (0x10594, 0x10595, 1, 0x105BB),
   (0x10C80, 0x10CB2, 1, 0x10CC0), (0x118A0, 0x118BF, 1, 0x118C0),
   (0x16E40, 0x16E5F, 1, 0x16E60), (0x1E900, 0x1E921, 1, 0x1E922)]

/-- The image of code point `n` under a list of runs; a code point in no run maps to
itself. -/
def lookupRuns (n : Nat) : List CaseRun → Nat
  | [] => n
  | (lo, hi, step, target) :: rest =>
    if lo ≤ n ∧ n ≤ hi ∧ (n - lo) % step = 0 then target + (n - lo)
    else lookupRuns n rest

/-- The table lookup for the mappings `lowerRuns`: a value of the parameter `tbl`, which
`toLowerRune` consults above U+007F only. -/
def unicodeLower (c : Char) : Char := Char.ofNat (lookupRuns c.toNat lowerRuns)

/-- The images of a run are scalar values, and one that is ASCII is not a capital. -/
def runOk (r : CaseRun) : Bool :=
  (decide (r.2.2.2 + (r.2.1 - r.1) < 0xD800) ||
    (decide (0xE000 ≤ r.2.2.2) && decide (r.2.2.2 + (r.2.1 - r.1) < 0x110000))) &&
  (decide (127 < r.2.2.2) ||
    (decide (r.1 = r.2.1) && (decide (r.2.2.2 < 65) || decide (90 < r.2.2.2))))

/-- No image of the run `r` is mapped by the run `r2`: the images lie below or above
`r2`, or `r2` maps every second code point and the images have the other parity. -/
def runsApart (r r2 : CaseRun) : Bool :=
  decide (r.2.2.2 + (r.2.1 - r.1) < r2.1) || decide (r2.2.1 < r.2.2.2) ||
  (decide (r2.2.2.1 = 2) && (decide (r.2.2.1 = 2) || decide (r.1 = r.2.1)) &&
    decide (r.2.2.2 % 2 ≠ r2.1 % 2))

/-! ## Grouped summation -/

/-- The Go type `map[string]float64` as `groupSum` builds it: one entry per key, in order
of first insertion. -/
abbrev Buckets := List (String × F64)

/-- The statement `sums[key] += x`: an absent key reads as `0`. -/
def bucketAdd : Buckets → String → F64 → Buckets
  | [], key, x => [(key, F64.add F64.zero x)]
  | (k, v) :: rest, key, x =>
    if k = key then (k, F64.add v x) :: rest else (k, v) :: bucketAdd rest key x

/-- The inner loop of `groupSum`: the formatted grouping values of a record, or `none`
when `miss` is set. -/
def keyParts (m : rec) : List String → Option (List String)
  | [] => some []
  | k :: ks =>
    let kk := sprintV (m.lookup k)
    if kk = "" then none else (keyParts m ks).map (fun parts => kk :: parts)

/-- Go's `strings.Join(parts, "|")`. -/
def joinKey (parts : List String) : String := "|".intercalate parts

/-- One iteration of the outer loop of `groupSum`. -/
def groupStep (groupKeys : List String) (valKey : String) (sums : Buckets) (m : rec) :
    Buckets :=
  match keyParts m groupKeys with
  | none => sums
  | some parts => bucketAdd sums (joinKey parts) (toFloat m valKey)

/-- The function `groupSum`. -/
def groupSum (rows : List rec) (groupKeys : List String) (valKey : String) : Buckets :=
  rows.foldl (groupStep groupKeys valKey) []

/-! ## The `runBtn` callback of `main`: enrichment, the two passes, the output rows -/

/-- The body of the enrichment loop (`for _, m := range all`): `oked` is stored when the
key is absent and `name_liter` is not empty; `okpo` and `soato` are always stored. The
result is the record after the three statements, or `none` when a store panics, which is
the case on the nil map (its reads give `ok = false`, `""` and `0`, so the first store it
reaches is `m["okpo"] = ...`). -/
def enrich (tbl : Char → Char) (m : MapRef) : Option MapRef :=
  (if (m.entries.lookup "oked").isNone then
      (if toString m.entries "name_liter" ≠ "" then
        m.store "oked" (.int (okedQosh tbl (toString m.entries "name_liter")))
       else some m)
    else some m).bind (fun m1 =>
      let soatot := toInt m1.entries "soato_tum"
      (m1.store "okpo" (.int (61500000 + Int.tmod soatot 1000))).bind (fun m2 =>
        m2.store "soato" (.int (Int.tdiv soatot 1000))))

/-- The enrichment loop over the slice `all`: the records after it, or `none` when the
body panics on one of them. -/
def enrichAll (tbl : Char → Char) : List MapRef → Option (List MapRef)
  | [] => some []
  | m :: rest =>
    match enrich tbl m with
    | none => none
    | some m1 => (enrichAll tbl rest).map (fun ms => m1 :: ms)

/-- The body of the loop building `rows2`: a copy of the record with `ns` set to 42 when
`oked` prints as `350` or `360`, else 41. -/
def withNs (m : rec) : rec :=
  m.set "ns" (.int (if sprintV (m.lookup "oked") = "350" ∨ sprintV (m.lookup "oked") = "360"
    then 42 else 41))

/-- The bucket map `sums1` of pass 1, from the enriched records. -/
def pass1 (all : List rec) (kcol vcol : String) : Buckets := groupSum all [kcol] vcol

/-- The bucket map `sums2` of pass 2, from the enriched records. -/
def pass2 (all : List rec) (kcol vcol : String) : Buckets :=
  groupSum (all.map withNs) ["ns", kcol] vcol

/-- Insertion of `x` into a list sorted by `less`. -/
def insertSlice {α : Type} (less : α → α → Bool) (x : α) : List α → List α
  | [] => [x]
  | y :: ys => if less x y then x :: y :: ys else y :: insertSlice less x ys

/-- Go's `sort.Slice(xs, less)`: some permutation of `xs` sorted by `less`. The model is
insertion sort; every sort returns the same list when no two elements are tied under
`less`, which is the case for the entries of a map sorted by key. -/
def sortSlice {α : Type} (less : α → α → Bool) (xs : List α) : List α :=
  xs.foldr (insertSlice less) []

/-- Go's `a < b` on strings. -/
def strLess (a b : String) : Bool := decide (a.data < b.data)

/-- An element of `out1`: the local type `kv`. -/
structure KV where
  Key : String
  Val : F64
deriving DecidableEq, Repr

/-- An element of `out2`. -/
structure NSKV where
  NS : String
  K : String
  V : F64
deriving DecidableEq, Repr

/-- The `less` function of the first `sort.Slice`. -/
def less1 (a b : KV) : Bool := strLess a.Key b.Key

/-- The `less` function of the second `sort.Slice`. -/
def less2 (a b : NSKV) : Bool := if a.NS = b.NS then strLess a.K b.K else strLess a.NS b.NS

/-- The list `out1` before sorting, for the map entries in the order `sums1` gives them. -/
def collect1 (sums1 : Buckets) : List KV :=
  sums1.map (fun kv => ⟨kv.1, F64.div kv.2 (F64.ofNat 1000)⟩)

/-- Go's `strings.SplitN(k, "|", 2)` when it has two parts: the text before and after the
first `|`; `none` when `k` has no `|` (one part). -/
def splitFirst : List Char → Option (List Char × List Char)
  | [] => none
  | c :: cs =>
    if c = '|' then some ([], cs)
    else (splitFirst cs).map (fun ab => (c :: ab.1, ab.2))

/-- The list `out2` before sorting; a key without `|` is skipped. -/
def collect2 (sums2 : Buckets) : List NSKV :=
  sums2.filterMap (fun kv =>
    (splitFirst kv.1.data).map (fun ab => ⟨⟨ab.1⟩, ⟨ab.2⟩, F64.div kv.2 (F64.ofNat 1000)⟩))

/-- The sorted list `out1`. -/
def out1 (sums1 : Buckets) : List KV := sortSlice less1 (collect1 sums1)

/-- The sorted list `out2`. -/
def out2 (sums2 : Buckets) : List NSKV := sortSlice less2 (collect2 sums2)

/-- Go's `strings.Split(k, "|")[0]`: the text before the first `|`. -/
def firstField (k : String) : String := ⟨k.data.takeWhile (fun c => c != '|')⟩

/-- The integer `soatot` read back from a key: `strconv.Atoi(strings.Split(k, "|")[0])`,
error dropped. -/
def keyCode (k : String) : Int := (atoi (firstField k)).1

/-- An output row `(mes, okpo, soato, razdel, ns, g1)`. -/
structure Row where
  mes : Int
  okpo : Int
  soato : Int
  razdel : Int
  ns : Int
  g1 : F64
deriving DecidableEq, Repr

/-- The row of `Jadval-1` for an element of `out1`. -/
def row1 (mes : Int) (kv : KV) : Row :=
  ⟨mes, 61500000 + Int.tmod (keyCode kv.Key) 1000, Int.tdiv (keyCode kv.Key) 1000, 1, 12,
    kv.Val⟩

/-- The row of `Jadval-2` for an element of `out2`. -/
def row2 (mes : Int) (r : NSKV) : Row :=
  ⟨mes, 61500000 + Int.tmod (keyCode r.K) 1000, Int.tdiv (keyCode r.K) 1000, 1,
    (atoi r.NS).1, r.V⟩

/-- The list `rows` handed to `writeExcel`, for the two bucket maps as enumerated and the
period `mes`. -/
def materialize (sums1 sums2 : Buckets) (mes : Int) : List Row :=
  (out1 sums1).map (row1 mes) ++ (out2 sums2).map (row2 mes)

/-- The whole computation of the callback from the loaded records to the rows; `none`
when the enrichment loop panics. The two passes only read the records. -/
def pipeline (tbl : Char → Char) (loaded : List MapRef) (kcol vcol : String) (mes : Int) :
    Option (List Row) :=
  (enrichAll tbl loaded).map (fun all =>
    materialize (pass1 (all.map MapRef.entries) kcol vcol)
      (pass2 (all.map MapRef.entries) kcol vcol) mes)

/-! ## Record loader: `readCSV` -/

/-- One result of a call `r.Read()` on the `encoding/csv` reader: the fields of the next
row, or a `*csv.ParseError` for a malformed row (with `FieldsPerRecord = -1` a row of any
length is well formed). A file is the list of these results in order; the call after the
last of them returns `io.EOF`. -/
inductive CsvRead where
  | row (fields : List String)
  | parseError
deriving DecidableEq, Repr

/-- The errors `readCSV` can return: from `os.Open`, and from the first `r.Read()`
(`io.EOF` on an empty file, a parse error on a malformed header). -/
inductive CsvErr where
  | openFailed
  | endOfFile
  | badRow
deriving DecidableEq, Repr

/-- The inner loop of `readCSV`: `m[strings.TrimSpace(h)] = row[i]` while `i < len(row)`. -/
def fillRecord : List String → List String → rec → rec
  | h :: hs, f :: fs, m => fillRecord hs fs (m.set (trimSpace h) (.str f))
  | _, _, m => m

/-- The outer loop of `readCSV`: every error of `r.Read()`, `io.EOF` or not, leaves the
loop by `break`; an empty row is skipped. -/
def readRows (header : List String) : List CsvRead → List rec → List rec
  | [], out => out
  | .parseError :: _, out => out
  | .row fields :: rest, out =>
    if fields.length = 0 then readRows header rest out
    else readRows header rest (out ++ [fillRecord header fields []])

/-- The function `readCSV`: the records and the error it returns; `none` is a path that
`os.Open` cannot open. -/
def readCSV (file : Option (List CsvRead)) : List rec × Option CsvErr :=
  match file with
  | none => ([], some .openFailed)
  | some [] => ([], some .endOfFile)
  | some (.parseError :: _) => ([], some .badRow)
  | some (.row header :: rest) => (readRows header rest [], none)

/-! ## Period -/

/-- The table `oylar`. -/
def oylar : List String :=
  ["Yanvar", "Fevral", "Mart", "Aprel", "May", "Iyun", "Iyul", "Avgust", "Sentabr",
   "Oktabr", "Noyabr", "Dekabr"]

/-- The loop `for i, name := range oylar` that sets `mes = i+1` at the first name equal to
the selection; `mes` stays 12 when no name is equal. -/
def mesScan (sel : String) : List String → Int → Int
  | [], _ => 12
  | name :: rest, i => if name = sel then i + 1 else mesScan sel rest (i + 1)

/-- The period `mes`: 12 when `yillik` is checked, else found by the loop. -/
def mes (yillik : Bool) (sel : String) : Int :=
  if yillik then 12 else mesScan sel oylar 0

/-! ## `groupSum` over another number type -/

/-- The statement `sums[key] += x` with the addition and zero of a number type `A`. -/
def bucketAddWith {A : Type} (add : A → A → A) (zero : A) :
    List (String × A) → String → A → List (String × A)
  | [], key, x => [(key, add zero x)]
  | (k, v) :: rest, key, x =>
    if k = key then (k, add v x) :: rest else (k, v) :: bucketAddWith add zero rest key x

/-- One iteration of the outer loop of `groupSum`, adding `val m` in `A`. -/
def groupStepWith {A : Type} (add : A → A → A) (zero : A) (val : rec → A)
    (groupKeys : List String) (sums : List (String × A)) (m : rec) : List (String × A) :=
  match keyParts m groupKeys with
  | none => sums
  | some parts => bucketAddWith add zero sums (joinKey parts) (val m)

/-- The function `groupSum` with the sums taken in `A`: the same loop, the same keys, the
value `val m` of each record added with `add` from `zero`. With `F64.add`, `F64.zero` and
`toFloat` it is `groupSum`. -/
def groupSumWith {A : Type} (add : A → A → A) (zero : A) (val : rec → A)
    (rows : List rec) (groupKeys : List String) : List (String × A) :=
  rows.foldl (groupStepWith add zero val groupKeys) []

/-! ## Specification-side definitions -/

/-- The grouping key as the specification words it: when every grouping component of the
record formats to a non-empty string, the formatted components joined by `|`; otherwise
the record has no key. -/
def specKey (m : rec) (groupKeys : List String) : Option String :=
  if groupKeys.all (fun k => sprintV (m.lookup k) != "") then
    some (joinKey (groupKeys.map (fun k => sprintV (m.lookup k))))
  else none

/-- The records of `rows`, in order, whose grouping key is `key`. -/
def producers (rows : List rec) (groupKeys : List String) (key : String) : List rec :=
  rows.filter (fun m => specKey m groupKeys = some key)

/-- The `float64` sum of a list, added from `0` in list order. -/
def sumFloats (xs : List F64) : F64 := xs.foldl F64.add F64.zero

/-- A bucket read after further additions `xs` to it. -/
def accum (o : Option F64) (xs : List F64) : Option F64 :=
  xs.foldl (fun o x => some (F64.add (o.getD F64.zero) x)) o

/-- The substring relation the specification speaks of: `sub` occurs in `l`. -/
def occursIn (sub l : List Char) : Prop := ∃ pre post : List Char, l = pre ++ sub ++ post

/-- The text after an optional leading sign. -/
def dropSign : List Char → List Char
  | [] => []
  | c :: cs => if c = '+' ∨ c = '-' then cs else c :: cs

/-- A decimal number as the specification means it: an optional sign, decimal digits with
at most one decimal point among them (at least one digit), and optionally an exponent
(`e` or `E`, an optional sign, at least one digit). -/
def isDecimalNumber (l : List Char) : Bool :=
  let body := dropSign l
  let mant := body.takeWhile (fun c => isDigit c || c = '.')
  let rest := body.dropWhile (fun c => isDigit c || c = '.')
  mant.any isDigit && decide ((mant.filter (fun c => c = '.')).length ≤ 1) &&
    (match rest with
     | [] => true
     | x :: es => (x = 'e' || x = 'E') && !(dropSign es).isEmpty && (dropSign es).all isDigit)

/-- The value of a string of decimal digits. -/
def digitsValue (ds : List Char) : Nat := ds.foldl (fun n c => n * 10 + digitVal c) 0

/-- The exact value of a finite `float64` as a rational number (0 for the infinities and
NaN, which have none). -/
def F64.exact : F64 → ℚ
  | .fin neg n d => if neg then -((n : ℚ) / (d : ℚ)) else (n : ℚ) / (d : ℚ)
  | _ => 0

/-- The value of a bucket, an absent bucket counting as 0. -/
def bucketOr {A : Type} (zero : A) (sums : List (String × A)) (key : String) : A :=
  (sums.lookup key).getD zero

/-! # Theorems -/

/-! ## Lemmas on `groupSum` -/

theorem keyParts_eq_specKey (m : rec) (groupKeys : List String) :
    (keyParts m groupKeys).map joinKey = specKey m groupKeys := by
  have h : ∀ gks : List String, keyParts m gks =
      if gks.all (fun k => sprintV (m.lookup k) != "") then
        some (gks.map (fun k => sprintV (m.lookup k))) else none := by
    intro gks
    induction gks with
    | nil => simp [keyParts]
    | cons k ks ih =>
      simp only [keyParts, ih, List.all_cons, List.map_cons]
      by_cases hk : sprintV (m.lookup k) = ""
      · simp [hk]
      · by_cases hall : (ks.all (fun k => sprintV (m.lookup k) != "")) = true
        · simp [hk, hall]
        · simp [hk, hall]
  rw [h, specKey]
  split <;> simp

theorem lookup_cons_ite {β : Type} (a k : String) (b : β) (es : List (String × β)) :
    List.lookup a ((k, b) :: es) = if a = k then some b else List.lookup a es := by
  by_cases h : a = k
  · subst h; simp [List.lookup]
  · have hb : (a == k) = false := by simpa using h
    simp [List.lookup, hb, h]

theorem lookup_bucketAdd (sums : Buckets) (key key' : String) (x : F64) :
    (bucketAdd sums key x).lookup key' =
      if key' = key then some (F64.add ((sums.lookup key).getD F64.zero) x)
      else sums.lookup key' := by
  induction sums with
  | nil =>
    by_cases h : key' = key
    · simp [bucketAdd, lookup_cons_ite, h]
    · simp [bucketAdd, lookup_cons_ite, h]
  | cons p rest ih =>
    obtain ⟨k, v⟩ := p
    by_cases hk : k = key
    · subst hk
      by_cases h : key' = k
      · simp [bucketAdd, lookup_cons_ite, h]
      · simp [bucketAdd, lookup_cons_ite, h]
    · by_cases h : key' = key
      · subst h
        have hk' : ¬ key' = k := fun e => hk e.symm
        simp [bucketAdd, lookup_cons_ite, hk, hk', ih]
      · by_cases h2 : key' = k
        · simp [bucketAdd, lookup_cons_ite, hk, h, h2]
        · simp [bucketAdd, lookup_cons_ite, hk, h, h2, ih]

theorem keys_bucketAdd (sums : Buckets) (key : String) (x : F64) :
    (bucketAdd sums key x).map Prod.fst =
      if key ∈ sums.map Prod.fst then sums.map Prod.fst else sums.map Prod.fst ++ [key] := by
  induction sums with
  | nil => simp [bucketAdd]
  | cons p rest ih =>
    obtain ⟨k, v⟩ := p
    by_cases hk : k = key
    · simp [bucketAdd, hk]
    · have hk' : ¬ key = k := fun e => hk e.symm
      simp only [bucketAdd, hk, if_false, List.map_cons, ih, List.mem_cons, hk', false_or]
      split <;> simp

theorem nodup_bucketAdd (sums : Buckets) (key : String) (x : F64)
    (h : (sums.map Prod.fst).Nodup) : ((bucketAdd sums key x).map Prod.fst).Nodup := by
  rw [keys_bucketAdd]
  split
  · exact h
  · rename_i hn
    exact List.Nodup.append h (List.nodup_singleton key) (by simpa using hn)

theorem nodup_foldl_groupStep (groupKeys : List String) (valKey : String) (rows : List rec) :
    ∀ acc : Buckets, (acc.map Prod.fst).Nodup →
      ((rows.foldl (groupStep groupKeys valKey) acc).map Prod.fst).Nodup := by
  induction rows with
  | nil => intro acc h; exact h
  | cons m rest ih =>
    intro acc h
    simp only [List.foldl_cons]
    apply ih
    unfold groupStep
    split
    · exact h
    · exact nodup_bucketAdd _ _ _ h

theorem lookup_foldl_groupStep (groupKeys : List String) (valKey key : String)
    (rows : List rec) :
    ∀ acc : Buckets, (rows.foldl (groupStep groupKeys valKey) acc).lookup key =
      accum (acc.lookup key) ((producers rows groupKeys key).map (fun m => toFloat m valKey)) := by
  induction rows with
  | nil => intro acc; simp [producers, accum]
  | cons m rest ih =>
    intro acc
    simp only [List.foldl_cons]
    rw [ih]
    have hs := keyParts_eq_specKey m groupKeys
    unfold groupStep
    cases hkp : keyParts m groupKeys with
    | none =>
      rw [hkp] at hs
      have : specKey m groupKeys = none := by simpa using hs.symm
      simp [producers, List.filter_cons, this]
    | some parts =>
      rw [hkp] at hs
      have hsk : specKey m groupKeys = some (joinKey parts) := by simpa using hs.symm
      simp only [lookup_bucketAdd]
      by_cases hkey : key = joinKey parts
      · subst hkey
        simp [producers, List.filter_cons, hsk, accum]
      · have : ¬ joinKey parts = key := fun e => hkey e.symm
        simp [producers, List.filter_cons, hsk, hkey, this]

theorem accum_none (xs : List F64) :
    accum none xs = if xs = [] then none else some (sumFloats xs) := by
  cases xs with
  | nil => simp [accum]
  | cons x rest =>
    have h : ∀ (l : List F64) (v : F64), accum (some v) l = some (l.foldl F64.add v) := by
      intro l
      induction l with
      | nil => intro v; simp [accum]
      | cons y ys ih =>
        intro v
        have := ih (F64.add v y)
        simpa [accum] using this
    have h1 : accum none (x :: rest) = accum (some (F64.add F64.zero x)) rest := by
      simp [accum]
    rw [h1, h]
    simp [sumFloats]

/-- C1: `groupSum` returns a map (no key twice) whose value at `key` is absent when no
record produces `key`, and otherwise is the sum of `toFloat` over exactly the records
producing `key` (those whose grouping components all format to non-empty strings, joined
by `|`); the empty record list gives the empty map, and the two records of the spec's
example give the single bucket `A ↦ 10`. -/
theorem groupSum_spec (rows : List rec) (groupKeys : List String) (valKey : String) :
    ((groupSum rows groupKeys valKey).map Prod.fst).Nodup ∧
    (∀ key : String, (groupSum rows groupKeys valKey).lookup key =
      if producers rows groupKeys key = [] then none
      else some (sumFloats ((producers rows groupKeys key).map (fun m => toFloat m valKey)))) ∧
    (∀ m ∈ rows, (∃ k ∈ groupKeys, sprintV (m.lookup k) = "") →
      ∀ key : String, m ∉ producers rows groupKeys key) ∧
    groupSum [] groupKeys valKey = [] ∧
    groupSum [[("g", .str "A"), ("v", .str "10")], [("g", .str ""), ("v", .str "5")]] ["g"] "v"
      = [("A", F64.ofNat 10)] := by
  refine ⟨?_, ?_, ?_, rfl, by decide⟩
  · exact nodup_foldl_groupStep groupKeys valKey rows [] (by simp)
  · intro key
    unfold groupSum
    rw [lookup_foldl_groupStep, List.lookup, accum_none]
    simp
  · intro m _ hex key hmem
    obtain ⟨k, hk, hempty⟩ := hex
    have : specKey m groupKeys = some key := by
      have := (List.mem_filter.mp hmem).2
      simpa using this
    unfold specKey at this
    split at this
    · rename_i hall
      have := List.all_eq_true.mp hall k hk
      simp [hempty] at this
    · exact absurd this (by simp)

/-- C2: on a record that has no entry for the grouping field, `groupSum` does not skip the
record: the absent field formats as `<nil>`, never as the empty string, so the record
opens (or adds to) the bucket `<nil>`. -/
theorem groupSum_missing_field_bucket :
    groupSum [[("v", .str "5")]] ["g"] "v" = [("<nil>", F64.ofNat 5)] ∧
    groupSum [[("g", .str "A"), ("v", .str "10")], [("v", .str "5")]] ["g"] "v"
      = [("A", F64.ofNat 10), ("<nil>", F64.ofNat 5)] ∧
    toString [("v", .str "5")] "g" = "" := by
  decide

/-! ## Lemmas on records -/

theorem lookup_filter_ne (m : rec) (k key : String) (h : key ≠ k) :
    List.lookup key (m.filter (fun p => p.1 != k)) = List.lookup key m := by
  induction m with
  | nil => rfl
  | cons p rest ih =>
    obtain ⟨a, b⟩ := p
    by_cases ha : a = k
    · subst ha
      simp [List.filter_cons, lookup_cons_ite, h, ih]
    · simp [List.filter_cons, lookup_cons_ite, ha, ih]

theorem lookup_set (m : rec) (k key : String) (v : Val) :
    (m.set k v).lookup key = if key = k then some v else m.lookup key := by
  unfold rec.set
  by_cases h : key = k
  · simp [lookup_cons_ite, h]
  · simp [lookup_cons_ite, h, lookup_filter_ne m k key h]

theorem toInt_set_ne (m : rec) (k key : String) (v : Val) (h : key ≠ k) :
    toInt (m.set k v) key = toInt m key := by
  unfold toInt
  rw [lookup_set]
  simp [h]

/-! ## Lemmas on the enrichment loop -/

theorem enrich_nilMap (tbl : Char → Char) : enrich tbl .nilMap = none := by
  simp [enrich, MapRef.entries, MapRef.store, toString]

theorem enrichAll_nilMap (tbl : Char → Char) (pre post : List MapRef) :
    enrichAll tbl (pre ++ .nilMap :: post) = none := by
  induction pre with
  | nil => simp [enrichAll, enrich_nilMap]
  | cons a rest ih =>
    show enrichAll tbl (a :: (rest ++ .nilMap :: post)) = none
    unfold enrichAll
    rw [ih]
    cases enrich tbl a <;> rfl

theorem enrich_map (tbl : Char → Char) (m : rec) :
    ∃ r : rec, enrich tbl (.map m) = some (.map r) ∧
      r.lookup "okpo" = some (.int (61500000 + Int.tmod (toInt m "soato_tum") 1000)) ∧
      r.lookup "soato" = some (.int (Int.tdiv (toInt m "soato_tum") 1000)) ∧
      r.lookup "oked" =
        (if (m.lookup "oked").isNone = true ∧ toString m "name_liter" ≠ "" then
          some (.int (okedQosh tbl (toString m "name_liter")))
         else m.lookup "oked") ∧
      (∀ key : String, key ≠ "oked" → key ≠ "okpo" → key ≠ "soato" →
        r.lookup key = m.lookup key) := by
  have hk1 : ¬ ("oked" : String) = "soato" := by decide
  have hk2 : ¬ ("oked" : String) = "okpo" := by decide
  have hk3 : ¬ ("okpo" : String) = "soato" := by decide
  by_cases h1 : (m.lookup "oked").isNone = true
  · by_cases h2 : toString m "name_liter" = ""
    · refine ⟨(m.set "okpo" (.int (61500000 + Int.tmod (toInt m "soato_tum") 1000))).set
        "soato" (.int (Int.tdiv (toInt m "soato_tum") 1000)), ?_, ?_, ?_, ?_, ?_⟩
      · simp [enrich, MapRef.entries, MapRef.store, h1, h2]
      · simp [lookup_set, hk3]
      · simp [lookup_set]
      · simp [lookup_set, hk1, hk2, h2]
      · intro key _ hb hc
        simp [lookup_set, hb, hc]
    · refine ⟨((m.set "oked" (.int (okedQosh tbl (toString m "name_liter")))).set "okpo"
          (.int (61500000 + Int.tmod (toInt m "soato_tum") 1000))).set
        "soato" (.int (Int.tdiv (toInt m "soato_tum") 1000)), ?_, ?_, ?_, ?_, ?_⟩
      · simp [enrich, MapRef.entries, MapRef.store, h1, h2,
          toInt_set_ne m "oked" "soato_tum" _ (by decide)]
      · simp [lookup_set, hk3]
      · simp [lookup_set]
      · simp [lookup_set, hk1, hk2, h1, h2]
      · intro key ha hb hc
        simp [lookup_set, ha, hb, hc]
  · refine ⟨(m.set "okpo" (.int (61500000 + Int.tmod (toInt m "soato_tum") 1000))).set
      "soato" (.int (Int.tdiv (toInt m "soato_tum") 1000)), ?_, ?_, ?_, ?_, ?_⟩
    · simp [enrich, MapRef.entries, MapRef.store, h1]
    · simp [lookup_set, hk3]
    · simp [lookup_set]
    · simp [lookup_set, hk1, hk2, h1]
    · intro key _ hb hc
      simp [lookup_set, hb, hc]

theorem toLowerRune_ascii (tbl tbl2 : Char → Char) (c : Char) (h : c.toNat ≤ 127) :
    toLowerRune tbl c = toLowerRune tbl2 c := by
  unfold toLowerRune
  rw [if_pos h, if_pos h]

theorem okedQosh_ascii (tbl tbl2 : Char → Char) (s : String)
    (h : ∀ c ∈ s.data, c.toNat ≤ 127) : okedQosh tbl s = okedQosh tbl2 s := by
  unfold okedQosh translitLower
  rw [List.map_congr_left (fun c hc => toLowerRune_ascii tbl tbl2 c (h c hc))]

theorem enrich_ascii (tbl tbl2 : Char → Char) (m : MapRef)
    (h : ∀ c ∈ (toString m.entries "name_liter").data, c.toNat ≤ 127) :
    enrich tbl m = enrich tbl2 m := by
  unfold enrich
  rw [okedQosh_ascii tbl tbl2 _ h]

theorem enrichAll_ascii (tbl tbl2 : Char → Char) (ms : List MapRef)
    (h : ∀ m ∈ ms, ∀ c ∈ (toString m.entries "name_liter").data, c.toNat ≤ 127) :
    enrichAll tbl ms = enrichAll tbl2 ms := by
  induction ms with
  | nil => rfl
  | cons m rest ih =>
    simp only [enrichAll]
    rw [enrich_ascii tbl tbl2 m (h m (by simp)), ih (fun m hm => h m (by simp [hm]))]

theorem pipeline_ascii (tbl tbl2 : Char → Char) (ms : List MapRef) (kcol vcol : String)
    (p : Int)
    (h : ∀ m ∈ ms, ∀ c ∈ (toString m.entries "name_liter").data, c.toNat ≤ 127) :
    pipeline tbl ms kcol vcol p = pipeline tbl2 ms kcol vcol p := by
  unfold pipeline
  rw [enrichAll_ascii tbl tbl2 ms h]

/-- C3: the enrichment loop does not reach every record. On the nil map that a JSON
`null` leaves, `soato_tum` coerces to 0, which is non-negative, and the store of `okpo`
panics: no `okpo` or `soato` results, and the callback ends for every list of records
that holds a nil map. On every map that is not nil the claim holds: when `soato_tum`
coerces to a non-negative integer `e`, enrichment stores `okpo = 61500000 + (e mod 1000)`
and `soato = e div 1000` whatever the record held under these keys, and the stored pair
gives back `e mod 1000` and `e div 1000`. -/
theorem enrich_codes (tbl : Char → Char) :
    toInt MapRef.nilMap.entries "soato_tum" = 0 ∧
    enrich tbl .nilMap = none ∧
    (∀ (pre post : List MapRef) (kcol vcol : String) (p : Int),
      pipeline tbl (pre ++ .nilMap :: post) kcol vcol p = none) ∧
    (∀ (m : rec) (e : Int), toInt m "soato_tum" = e → 0 ≤ e →
      ∃ r : rec, enrich tbl (.map m) = some (.map r) ∧
        r.lookup "okpo" = some (.int (61500000 + e % 1000)) ∧
        r.lookup "soato" = some (.int (e / 1000)) ∧
        (∀ okpo soato : Int, r.lookup "okpo" = some (.int okpo) →
          r.lookup "soato" = some (.int soato) →
          e % 1000 = okpo - 61500000 ∧ e / 1000 = soato)) ∧
    (enrich tbl (.map [("soato_tum", .str " 41001"), ("okpo", .str "x"),
        ("soato", .int 7)])).map (fun m => (m.entries.lookup "okpo", m.entries.lookup "soato"))
      = some (some (.int 61500001), some (.int 41)) := by
  refine ⟨by decide, enrich_nilMap tbl, ?_, ?_, ?_⟩
  · intro pre post kcol vcol p
    unfold pipeline
    rw [enrichAll_nilMap]
    rfl
  · intro m e he hpos
    obtain ⟨r, hr, h1, h2, _, _⟩ := enrich_map tbl m
    rw [he, Int.tmod_eq_emod hpos (by decide)] at h1
    rw [he, Int.tdiv_eq_ediv hpos (by decide)] at h2
    refine ⟨r, hr, h1, h2, ?_⟩
    intro okpo soato ho hs
    rw [h1] at ho
    rw [h2] at hs
    have ho' : 61500000 + e % 1000 = okpo := by simpa using ho
    have hs' : e / 1000 = soato := by simpa using hs
    exact ⟨by omega, hs'⟩
  · rw [enrich_ascii tbl (fun c => c) _ (by decide)]
    decide

/-! ## Lemmas on the classifier -/

theorem startsWith_iff (l p : List Char) :
    startsWith l p = true ↔ ∃ post : List Char, l = p ++ post := by
  induction p generalizing l with
  | nil => cases l <;> simp [startsWith]
  | cons a ps ih =>
    cases l with
    | nil => simp [startsWith]
    | cons c cs =>
      simp only [startsWith, Bool.and_eq_true, decide_eq_true_eq, ih, List.cons_append,
        List.cons.injEq]
      constructor
      · rintro ⟨hca, post, hpost⟩
        exact ⟨post, hca, hpost⟩
      · rintro ⟨post, hca, hpost⟩
        exact ⟨hca, post, hpost⟩

theorem containsChars_iff (l sub : List Char) :
    containsChars l sub = true ↔ occursIn sub l := by
  induction l with
  | nil =>
    cases sub with
    | nil => simp [containsChars, occursIn]
    | cons a as => simp [containsChars, occursIn]
  | cons c cs ih =>
    simp only [containsChars, Bool.or_eq_true, startsWith_iff, ih]
    constructor
    · rintro (⟨post, h⟩ | ⟨pre, post, h⟩)
      · exact ⟨[], post, by simpa using h⟩
      · exact ⟨c :: pre, post, by simp [h]⟩
    · rintro ⟨pre, post, h⟩
      cases pre with
      | nil => exact Or.inl ⟨post, by simpa using h⟩
      | cons a pre' =>
        simp only [List.cons_append, List.cons.injEq] at h
        exact Or.inr ⟨pre', post, h.2⟩

theorem okedScan_first (l : String) (pre post : List (String × Int)) (kw : String)
    (code : Int) (hkw : contains l kw = true)
    (hpre : ∀ p ∈ pre, contains l p.1 = false) :
    okedScan l (pre ++ (kw, code) :: post) = code := by
  induction pre with
  | nil => simp [okedScan, hkw]
  | cons q qs ih =>
    have hq : contains l q.1 = false := hpre q (by simp)
    simp only [List.cons_append, okedScan, hq]
    exact ih (fun p hp => hpre p (by simp [hp]))

theorem okedScan_none (l : String) (table : List (String × Int))
    (h : ∀ p ∈ table, contains l p.1 = false) : okedScan l table = 960 := by
  induction table with
  | nil => rfl
  | cons q qs ih =>
    have hq : contains l q.1 = false := h q (by simp)
    simp only [okedScan, hq]
    exact ih (fun p hp => h p (by simp [hp]))

/-- C4: `okedQosh` is a total function; for every case table it returns the code of the
first entry of the table (in the order gaz, suv, kafe, market, savdo, kino, aloqa, pochta,
maktab, stomatolog, sport) whose keyword occurs in `translitLower name`, and 960 when none
occurs; a name whose normalised form contains `gaz` gets 350 whatever else it contains.
With the Unicode mappings, `KİNO` (U+0130) normalises to `kino` and gets 590. -/
theorem okedQosh_first_match (tbl : Char → Char) (name : String) :
    kalitlar.map Prod.fst = ["gaz", "suv", "kafe", "market", "savdo", "kino", "aloqa",
      "pochta", "maktab", "stomatolog", "sport"] ∧
    (∀ (pre post : List (String × Int)) (kw : String) (code : Int),
      kalitlar = pre ++ (kw, code) :: post →
      occursIn kw.data (translitLower tbl name).data →
      (∀ p ∈ pre, ¬ occursIn p.1.data (translitLower tbl name).data) →
      okedQosh tbl name = code) ∧
    ((∀ p ∈ kalitlar, ¬ occursIn p.1.data (translitLower tbl name).data) →
      okedQosh tbl name = 960) ∧
    (occursIn "gaz".data (translitLower tbl name).data → okedQosh tbl name = 350) ∧
    okedQosh tbl "Gazmontaj" = 350 ∧ okedQosh tbl "Sport market GAZ" = 350 ∧
    okedQosh tbl "Toshkent" = 960 ∧
    translitLower unicodeLower "KİNO" = "kino" ∧ okedQosh unicodeLower "KİNO" = 590 ∧
    okedQosh unicodeLower "Sport KİNO" = 590 ∧ okedQosh unicodeLower "ҒAZ sport" = 350 := by
  refine ⟨by decide, ?_, ?_, ?_, ?_, ?_, ?_, by decide, by decide, by decide, by decide⟩
  · intro pre post kw code htab hkw hpre
    unfold okedQosh
    rw [htab]
    apply okedScan_first
    · exact (containsChars_iff _ _).mpr hkw
    · intro p hp
      have := hpre p hp
      rw [← containsChars_iff] at this
      simpa [contains] using this
  · intro h
    unfold okedQosh
    apply okedScan_none
    intro p hp
    have := h p hp
    rw [← containsChars_iff] at this
    simpa [contains] using this
  · intro h
    unfold okedQosh
    exact okedScan_first _ [] _ "gaz" 350 ((containsChars_iff _ _).mpr h) (by simp)
  · rw [okedQosh_ascii tbl (fun c => c) _ (by decide)]
    decide
  · rw [okedQosh_ascii tbl (fun c => c) _ (by decide)]
    decide
  · rw [okedQosh_ascii tbl (fun c => c) _ (by decide)]
    decide

/-! ## Lemmas on `sort.Slice` -/

theorem perm_insertSlice {α : Type} (less : α → α → Bool) (x : α) (ys : List α) :
    (insertSlice less x ys).Perm (x :: ys) := by
  induction ys with
  | nil => exact List.Perm.refl _
  | cons y rest ih =>
    unfold insertSlice
    split
    · exact List.Perm.refl _
    · exact (List.Perm.cons y ih).trans (List.Perm.swap x y rest)

theorem perm_sortSlice {α : Type} (less : α → α → Bool) (xs : List α) :
    (sortSlice less xs).Perm xs := by
  induction xs with
  | nil => exact List.Perm.refl _
  | cons x rest ih =>
    show (insertSlice less x (sortSlice less rest)).Perm (x :: rest)
    exact (perm_insertSlice less x _).trans (List.Perm.cons x ih)

theorem mem_sortSlice {α : Type} (less : α → α → Bool) (xs : List α) (a : α) :
    a ∈ sortSlice less xs ↔ a ∈ xs :=
  (perm_sortSlice less xs).mem_iff

theorem pairwise_insertSlice {α : Type} (less : α → α → Bool)
    (hasym : ∀ a b, less a b = true → less b a = false)
    (htrans : ∀ a b c, less a b = true → less b c = true → less a c = true)
    (x : α) (ys : List α) (h : ys.Pairwise (fun a b => less b a = false)) :
    (insertSlice less x ys).Pairwise (fun a b => less b a = false) := by
  induction ys with
  | nil => simp [insertSlice]
  | cons y rest ih =>
    have hy := List.pairwise_cons.mp h
    unfold insertSlice
    by_cases hxy : less x y = true
    · simp only [hxy, if_true]
      refine List.pairwise_cons.mpr ⟨?_, h⟩
      intro b hb
      rcases List.mem_cons.mp hb with rfl | hb'
      · exact hasym _ _ hxy
      · have hyb : less b y = false := hy.1 b hb'
        cases hbx : less b x with
        | false => rfl
        | true => rw [htrans b x y hbx hxy] at hyb; exact absurd hyb (by simp)
    · have hxy' : less x y = false := by simpa using hxy
      simp only [hxy', Bool.false_eq_true, if_false]
      refine List.pairwise_cons.mpr ⟨?_, ih hy.2⟩
      intro b hb
      rcases List.mem_cons.mp ((perm_insertSlice less x rest).mem_iff.mp hb) with rfl | hb'
      · exact hxy'
      · exact hy.1 b hb'

theorem pairwise_sortSlice {α : Type} (less : α → α → Bool)
    (hasym : ∀ a b, less a b = true → less b a = false)
    (htrans : ∀ a b c, less a b = true → less b c = true → less a c = true)
    (xs : List α) : (sortSlice less xs).Pairwise (fun a b => less b a = false) := by
  induction xs with
  | nil => exact List.Pairwise.nil
  | cons x rest ih => exact pairwise_insertSlice less hasym htrans x _ ih

theorem strLess_iff (a b : String) : strLess a b = true ↔ a < b := by
  simp [strLess, String.lt_iff_toList_lt]

theorem strLess_false_iff (a b : String) : strLess a b = false ↔ b ≤ a := by
  rw [← not_lt, ← strLess_iff]
  simp

theorem less1_asymm (a b : KV) (h : less1 a b = true) : less1 b a = false := by
  unfold less1 at *
  rw [strLess_iff] at h
  rw [strLess_false_iff]
  exact le_of_lt h

theorem less1_trans (a b c : KV) (h1 : less1 a b = true) (h2 : less1 b c = true) :
    less1 a c = true := by
  unfold less1 at *
  rw [strLess_iff] at *
  exact lt_trans h1 h2

theorem less2_iff (a b : NSKV) :
    less2 a b = true ↔ a.NS < b.NS ∨ (a.NS = b.NS ∧ a.K < b.K) := by
  unfold less2
  by_cases h : a.NS = b.NS
  · simp [h, strLess_iff]
  · simp [h, strLess_iff]

theorem less2_false_iff (a b : NSKV) :
    less2 b a = false ↔ a.NS < b.NS ∨ (a.NS = b.NS ∧ a.K ≤ b.K) := by
  rw [← Bool.not_eq_true, less2_iff]
  constructor
  · intro h
    rcases lt_trichotomy a.NS b.NS with hlt | heq | hgt
    · exact Or.inl hlt
    · refine Or.inr ⟨heq, ?_⟩
      by_contra hk
      exact h (Or.inr ⟨heq.symm, not_le.mp hk⟩)
    · exact absurd (Or.inl hgt) h
  · rintro (hlt | ⟨heq, hle⟩) (hlt' | ⟨heq', hlt'⟩)
    · exact absurd hlt' (not_lt.mpr (le_of_lt hlt))
    · exact absurd hlt (by rw [heq']; exact lt_irrefl _)
    · exact absurd hlt' (by rw [heq]; exact lt_irrefl _)
    · exact absurd hlt' (not_lt.mpr hle)

theorem less2_asymm (a b : NSKV) (h : less2 a b = true) : less2 b a = false := by
  rw [less2_false_iff]
  rcases (less2_iff a b).mp h with hlt | ⟨heq, hlt⟩
  · exact Or.inl hlt
  · exact Or.inr ⟨heq, le_of_lt hlt⟩

theorem less2_trans (a b c : NSKV) (h1 : less2 a b = true) (h2 : less2 b c = true) :
    less2 a c = true := by
  rw [less2_iff] at *
  rcases h1 with h1 | ⟨e1, k1⟩ <;> rcases h2 with h2 | ⟨e2, k2⟩
  · exact Or.inl (lt_trans h1 h2)
  · exact Or.inl (e2 ▸ h1)
  · exact Or.inl (e1 ▸ h2)
  · exact Or.inr ⟨e1.trans e2, lt_trans k1 k2⟩

theorem splitFirst_eq_some (l a b : List Char) :
    splitFirst l = some (a, b) ↔ l = a ++ '|' :: b ∧ '|' ∉ a := by
  induction l generalizing a with
  | nil => simp [splitFirst]
  | cons c cs ih =>
    unfold splitFirst
    by_cases hc : c = '|'
    · subst hc
      simp only [if_true, Option.some.injEq, Prod.mk.injEq]
      constructor
      · rintro ⟨rfl, rfl⟩; simp
      · rintro ⟨h, hn⟩
        cases a with
        | nil =>
          simp only [List.nil_append, List.cons.injEq, true_and] at h
          exact ⟨rfl, h⟩
        | cons x xs =>
          simp only [List.cons_append, List.cons.injEq] at h
          exact absurd (List.mem_cons.mpr (Or.inl h.1)) hn
    · simp only [hc, if_false, Option.map_eq_some', Prod.exists, Prod.mk.injEq]
      constructor
      · rintro ⟨a', b', h, rfl, rfl⟩
        obtain ⟨h1, h2⟩ := (ih a').mp h
        refine ⟨by simp [h1], ?_⟩
        simp only [List.mem_cons, not_or]
        exact ⟨fun e => hc e.symm, h2⟩
      · rintro ⟨h, hn⟩
        cases a with
        | nil =>
          simp only [List.nil_append, List.cons.injEq] at h
          exact absurd h.1 hc
        | cons x xs =>
          simp only [List.cons_append, List.cons.injEq] at h
          simp only [List.mem_cons, not_or] at hn
          exact ⟨xs, b, (ih xs).mpr ⟨h.2, hn.2⟩, by rw [h.1], rfl⟩

theorem firstField_of_no_bar (k : String) (h : '|' ∉ k.data) : firstField k = k := by
  unfold firstField
  have : k.data.takeWhile (fun c => c != '|') = k.data := by
    apply List.takeWhile_eq_self_iff.mpr
    intro c hc
    have : c ≠ '|' := fun e => h (e ▸ hc)
    simpa using this
  rw [this]

theorem mem_collect1 (sums1 : Buckets) (kv : KV) :
    kv ∈ collect1 sums1 ↔
      ∃ (k : String) (s : F64), (k, s) ∈ sums1 ∧ kv = ⟨k, F64.div s (F64.ofNat 1000)⟩ := by
  unfold collect1
  simp only [List.mem_map, Prod.exists]
  constructor
  · rintro ⟨k, s, hmem, rfl⟩; exact ⟨k, s, hmem, rfl⟩
  · rintro ⟨k, s, hmem, rfl⟩; exact ⟨k, s, hmem, rfl⟩

theorem mem_collect2 (sums2 : Buckets) (r : NSKV) :
    r ∈ collect2 sums2 ↔
      ∃ (flag k : String) (s : F64), '|' ∉ flag.data ∧ (flag ++ "|" ++ k, s) ∈ sums2 ∧
        r = ⟨flag, k, F64.div s (F64.ofNat 1000)⟩ := by
  unfold collect2
  simp only [List.mem_filterMap, Option.map_eq_some', Prod.exists]
  constructor
  · rintro ⟨key, s, hmem, a, b, hsplit, rfl⟩
    obtain ⟨hkey, hbar⟩ := (splitFirst_eq_some _ _ _).mp hsplit
    refine ⟨⟨a⟩, ⟨b⟩, s, hbar, ?_, rfl⟩
    have : (⟨a⟩ : String) ++ "|" ++ ⟨b⟩ = key := by
      apply String.ext
      simp [hkey]
    rw [this]
    exact hmem
  · rintro ⟨flag, k, s, hbar, hmem, rfl⟩
    refine ⟨flag ++ "|" ++ k, s, hmem, flag.data, k.data, ?_, rfl⟩
    apply (splitFirst_eq_some _ _ _).mpr
    exact ⟨by simp, hbar⟩

/-- C5: every output row has the fixed shape. A row is emitted exactly for each pass-1
bucket `(k, s)`, as `(p, 61500000 + e mod 1000, e div 1000, 1, 12, s/1000)` with `e` the
integer parsed from `k`, and for each pass-2 bucket with key `flag|k`, as
`(p, 61500000 + e mod 1000, e div 1000, 1, flag, s/1000)`; the sum is divided by 1000
once, so 123000 is emitted as 123. (`mod` and `div` truncate, and are the usual ones for
`e ≥ 0`.) -/
theorem materialize_row_shape (sums1 sums2 : Buckets) (p : Int) :
    (∀ row : Row, row ∈ materialize sums1 sums2 p ↔
      (∃ (k : String) (s : F64), (k, s) ∈ sums1 ∧
        row = ⟨p, 61500000 + Int.tmod (keyCode k) 1000, Int.tdiv (keyCode k) 1000, 1, 12,
          F64.div s (F64.ofNat 1000)⟩) ∨
      (∃ (flag k : String) (s : F64), '|' ∉ flag.data ∧ (flag ++ "|" ++ k, s) ∈ sums2 ∧
        row = ⟨p, 61500000 + Int.tmod (keyCode k) 1000, Int.tdiv (keyCode k) 1000, 1,
          (atoi flag).1, F64.div s (F64.ofNat 1000)⟩)) ∧
    (∀ k : String, '|' ∉ k.data → keyCode k = (atoi k).1) ∧
    (∀ e : Int, 0 ≤ e → Int.tmod e 1000 = e % 1000 ∧ Int.tdiv e 1000 = e / 1000) ∧
    materialize [("41001", F64.ofNat 123000)] [("42|41001", F64.ofNat 123000)] p =
      [⟨p, 61500001, 41, 1, 12, F64.ofNat 123⟩, ⟨p, 61500001, 41, 1, 42, F64.ofNat 123⟩] := by
  refine ⟨?_, ?_, ?_, ?_⟩
  · intro row
    unfold materialize out1 out2
    simp only [List.mem_append, List.mem_map, mem_sortSlice, mem_collect1, mem_collect2]
    constructor
    · rintro (⟨kv, ⟨k, s, hmem, rfl⟩, rfl⟩ | ⟨r, ⟨flag, k, s, hbar, hmem, rfl⟩, rfl⟩)
      · exact Or.inl ⟨k, s, hmem, rfl⟩
      · exact Or.inr ⟨flag, k, s, hbar, hmem, rfl⟩
    · rintro (⟨k, s, hmem, rfl⟩ | ⟨flag, k, s, hbar, hmem, rfl⟩)
      · exact Or.inl ⟨_, ⟨k, s, hmem, rfl⟩, rfl⟩
      · exact Or.inr ⟨_, ⟨flag, k, s, hbar, hmem, rfl⟩, rfl⟩
  · intro k hk
    unfold keyCode
    rw [firstField_of_no_bar k hk]
  · intro e he
    exact ⟨Int.tmod_eq_emod he (by decide), Int.tdiv_eq_ediv he (by decide)⟩
  · have h1 : out1 [("41001", F64.ofNat 123000)] = [⟨"41001", F64.ofNat 123⟩] := by decide
    have h2 : out2 [("42|41001", F64.ofNat 123000)] = [⟨"42", "41001", F64.ofNat 123⟩] := by
      decide
    have h3 : keyCode "41001" = 41001 := by decide
    have h4 : (atoi "42").1 = 42 := by decide
    simp only [materialize, h1, h2, List.map, row1, row2, h3, h4, List.cons_append,
      List.nil_append]
    rfl

theorem keys_collect1 (sums1 : Buckets) :
    (collect1 sums1).map KV.Key = sums1.map Prod.fst := by
  unfold collect1
  simp [List.map_map, Function.comp_def]

theorem sublist_keys_collect2 (sums2 : Buckets) :
    ((collect2 sums2).map (fun r => (⟨r.NS.data ++ '|' :: r.K.data⟩ : String))).Sublist
      (sums2.map Prod.fst) := by
  induction sums2 with
  | nil => exact List.Sublist.slnil
  | cons kv rest ih =>
    unfold collect2 at *
    cases hs : splitFirst kv.1.data with
    | none =>
      simp only [List.filterMap_cons, hs, Option.map_none', List.map_cons]
      exact List.Sublist.cons _ ih
    | some ab =>
      obtain ⟨a, b⟩ := ab
      have hkey := ((splitFirst_eq_some _ _ _).mp hs).1
      simp only [List.filterMap_cons, hs, Option.map_some', List.map_cons]
      have : (⟨a ++ '|' :: b⟩ : String) = kv.1 := by
        apply String.ext
        simp [hkey]
      rw [this]
      exact List.Sublist.cons₂ _ ih

/-- C6: the rows are the pass-1 rows followed by the pass-2 rows; for bucket maps (no key
twice) the pass-1 rows come in strictly ascending order of the grouping key, and the
pass-2 rows in ascending order of the flag string and, for equal flags, of the grouping
key. Both sorted lists hold the collected entries, each once. -/
theorem materialize_order (sums1 sums2 : Buckets) (p : Int)
    (h1 : (sums1.map Prod.fst).Nodup) (h2 : (sums2.map Prod.fst).Nodup) :
    materialize sums1 sums2 p = (out1 sums1).map (row1 p) ++ (out2 sums2).map (row2 p) ∧
    (out1 sums1).Perm (collect1 sums1) ∧ (out2 sums2).Perm (collect2 sums2) ∧
    (out1 sums1).Pairwise (fun a b => a.Key < b.Key) ∧
    (out2 sums2).Pairwise (fun a b => a.NS < b.NS ∨ (a.NS = b.NS ∧ a.K < b.K)) := by
  refine ⟨rfl, perm_sortSlice _ _, perm_sortSlice _ _, ?_, ?_⟩
  · have hs := pairwise_sortSlice less1 less1_asymm less1_trans (collect1 sums1)
    have hnd : ((out1 sums1).map KV.Key).Nodup := by
      have hp : ((out1 sums1).map KV.Key).Perm ((collect1 sums1).map KV.Key) :=
        (perm_sortSlice less1 (collect1 sums1)).map _
      rw [keys_collect1] at hp
      exact hp.nodup_iff.mpr h1
    have hne : (out1 sums1).Pairwise (fun a b => a.Key ≠ b.Key) :=
      (List.pairwise_map.mp hnd)
    refine (hs.and hne).imp ?_
    rintro a b ⟨hle, hne⟩
    have : a.Key ≤ b.Key := (strLess_false_iff _ _).mp hle
    exact lt_of_le_of_ne this hne
  · have hs := pairwise_sortSlice less2 less2_asymm less2_trans (collect2 sums2)
    have hnd : ((out2 sums2).map
        (fun r => (⟨r.NS.data ++ '|' :: r.K.data⟩ : String))).Nodup := by
      have hp := (perm_sortSlice less2 (collect2 sums2)).map
        (fun r => (⟨r.NS.data ++ '|' :: r.K.data⟩ : String))
      exact hp.nodup_iff.mpr ((sublist_keys_collect2 sums2).nodup h2)
    have hne := List.pairwise_map.mp hnd
    refine (hs.and hne).imp ?_
    rintro a b ⟨hle, hne⟩
    rcases (less2_false_iff a b).mp hle with hlt | ⟨heq, hk⟩
    · exact Or.inl hlt
    · refine Or.inr ⟨heq, lt_of_le_of_ne hk ?_⟩
      intro hkk
      exact hne (by rw [heq, hkk])

/-- C6 at concrete maps: two buckets per pass, enumerated out of order. -/
theorem materialize_order_witness :
    materialize [("41002", F64.ofNat 2000), ("41001", F64.ofNat 1000)]
        [("42|41002", F64.ofNat 2000), ("41|41001", F64.ofNat 1000)] 12 =
      (out1 [("41002", F64.ofNat 2000), ("41001", F64.ofNat 1000)]).map (row1 12) ++
        (out2 [("42|41002", F64.ofNat 2000), ("41|41001", F64.ofNat 1000)]).map (row2 12) ∧
    (out1 [("41002", F64.ofNat 2000), ("41001", F64.ofNat 1000)]).Pairwise
      (fun a b => a.Key < b.Key) ∧
    (out1 [("41002", F64.ofNat 2000), ("41001", F64.ofNat 1000)]).map KV.Key
      = ["41001", "41002"] :=
  ⟨(materialize_order [("41002", F64.ofNat 2000), ("41001", F64.ofNat 1000)]
      [("42|41002", F64.ofNat 2000), ("41|41001", F64.ofNat 1000)] 12
      (by decide) (by decide)).1,
   (materialize_order [("41002", F64.ofNat 2000), ("41001", F64.ofNat 1000)]
      [("42|41002", F64.ofNat 2000), ("41|41001", F64.ofNat 1000)] 12
      (by decide) (by decide)).2.2.2.1,
   by decide⟩

theorem materialize_mes (sums1 sums2 : Buckets) (p : Int) :
    materialize sums1 sums2 p =
      (materialize sums1 sums2 0).map (fun r => ⟨p, r.okpo, r.soato, r.razdel, r.ns, r.g1⟩) := by
  unfold materialize
  simp only [List.map_append, List.map_map]
  rfl

theorem pipeline_mes (tbl : Char → Char) (ms : List MapRef) (kcol vcol : String) (p : Int) :
    pipeline tbl ms kcol vcol p =
      (pipeline tbl ms kcol vcol 0).map (fun rows =>
        rows.map (fun r => ⟨p, r.okpo, r.soato, r.razdel, r.ns, r.g1⟩)) := by
  unfold pipeline
  cases enrichAll tbl ms with
  | none => rfl
  | some all => simp only [Option.map_some', materialize_mes _ _ p]

/-- C7: the end-to-end scenario. For every case table, enrichment classifies the two
records as 470 and 350, and for every period `p` the pipeline emits exactly the four rows
of the scenario, the two pass-1 rows first. -/
theorem pipeline_scenario (tbl : Char → Char) (p : Int) :
    (enrich tbl (.map [("soato_tum", .str "41001"), ("name_liter", .str "Market Toshkent"),
      ("qiymat", .str "1000000")])).map (fun m => m.entries.lookup "oked")
      = some (some (.int 470)) ∧
    (enrich tbl (.map [("soato_tum", .str "41002"), ("name_liter", .str "Gaz idorasi"),
      ("qiymat", .str "2000000")])).map (fun m => m.entries.lookup "oked")
      = some (some (.int 350)) ∧
    pipeline tbl
      [.map [("soato_tum", .str "41001"), ("name_liter", .str "Market Toshkent"),
        ("qiymat", .str "1000000")],
       .map [("soato_tum", .str "41002"), ("name_liter", .str "Gaz idorasi"),
        ("qiymat", .str "2000000")]] "soato_tum" "qiymat" p =
      some [⟨p, 61500001, 41, 1, 12, F64.ofNat 1000⟩, ⟨p, 61500002, 41, 1, 12, F64.ofNat 2000⟩,
       ⟨p, 61500001, 41, 1, 41, F64.ofNat 1000⟩, ⟨p, 61500002, 41, 1, 42, F64.ofNat 2000⟩] := by
  refine ⟨?_, ?_, ?_⟩
  · rw [enrich_ascii tbl (fun c => c) _ (by decide)]
    decide
  · rw [enrich_ascii tbl (fun c => c) _ (by decide)]
    decide
  · rw [pipeline_ascii tbl (fun c => c) _ _ _ _ (by decide), pipeline_mes]
    have h : pipeline (fun c => c)
        [.map [("soato_tum", .str "41001"), ("name_liter", .str "Market Toshkent"),
          ("qiymat", .str "1000000")],
         .map [("soato_tum", .str "41002"), ("name_liter", .str "Gaz idorasi"),
          ("qiymat", .str "2000000")]] "soato_tum" "qiymat" 0 =
        some [⟨0, 61500001, 41, 1, 12, F64.ofNat 1000⟩,
          ⟨0, 61500002, 41, 1, 12, F64.ofNat 2000⟩,
          ⟨0, 61500001, 41, 1, 41, F64.ofNat 1000⟩,
          ⟨0, 61500002, 41, 1, 42, F64.ofNat 2000⟩] := by
      decide
    rw [h]
    rfl


/-! ## Lemmas on rounding and on parsing digit strings -/

theorem bitLenAux_zero (fuel : Nat) : F64.bitLenAux fuel 0 = 0 := by
  cases fuel <;> simp [F64.bitLenAux]

theorem bitLenAux_spec (fuel : Nat) : ∀ n : Nat, n ≤ fuel → 0 < n →
    0 < F64.bitLenAux fuel n ∧ 2 ^ (F64.bitLenAux fuel n - 1) ≤ n ∧
      n < 2 ^ F64.bitLenAux fuel n := by
  induction fuel with
  | zero => intro n h hn; omega
  | succ fuel ih =>
    intro n h hn
    have hne : n ≠ 0 := by omega
    simp only [F64.bitLenAux, hne, if_false]
    by_cases h2 : n / 2 = 0
    · have h1 : n = 1 := by omega
      subst h1
      simp [bitLenAux_zero]
    · obtain ⟨a, b, c⟩ := ih (n / 2) (by omega) (by omega)
      have e1 : 2 ^ F64.bitLenAux fuel (n / 2) = 2 * 2 ^ (F64.bitLenAux fuel (n / 2) - 1) := by
        conv_lhs => rw [show F64.bitLenAux fuel (n / 2)
          = (F64.bitLenAux fuel (n / 2) - 1) + 1 by omega]
        rw [pow_succ, Nat.mul_comm]
      refine ⟨by omega, ?_, ?_⟩
      · simp only [Nat.add_sub_cancel]
        rw [e1]; omega
      · rw [pow_succ]; omega

theorem bitLen_spec (n : Nat) (hn : 0 < n) :
    0 < F64.bitLen n ∧ 2 ^ (F64.bitLen n - 1) ≤ n ∧ n < 2 ^ F64.bitLen n :=
  bitLenAux_spec n n (Nat.le_refl n) hn

theorem bitLen_le_of_lt_pow (n k : Nat) (hn : 0 < n) (h : n < 2 ^ k) : F64.bitLen n ≤ k := by
  obtain ⟨a, b, _⟩ := bitLen_spec n hn
  by_contra hlt
  have hk : k ≤ F64.bitLen n - 1 := by omega
  have : 2 ^ k ≤ 2 ^ (F64.bitLen n - 1) := Nat.pow_le_pow_right (by decide) hk
  omega

theorem round64_exact (n : Nat) (hn : 0 < n) (h : n < 2 ^ 53) :
    F64.round64 false n 1 = (F64.ofNat n, false) := by
  obtain ⟨hb0, hb1, hb2⟩ := bitLen_spec n hn
  have hb53 : F64.bitLen n ≤ 53 := bitLen_le_of_lt_pow n 53 hn h
  have hone : F64.bitLen 1 = 1 := by decide
  obtain ⟨k, hk⟩ : ∃ k : Nat, F64.bitLen n = k + 1 := ⟨F64.bitLen n - 1, by omega⟩
  have hk52 : k ≤ 52 := by omega
  have hkpow : 2 ^ k ≤ n := by
    have : F64.bitLen n - 1 = k := by omega
    rw [this] at hb1; exact hb1
  have hexp : F64.binExp n 1 = -((52 - k : Nat) : Int) := by
    unfold F64.binExp
    simp only [hone, hk]
    have e1 : ((k + 1 : Nat) : Int) - ((1 : Nat) : Int) = (k : Int) := by push_cast; ring
    rw [e1]
    have e2 : F64.scaled n 1 (k : Int) = (n, 2 ^ k) := by
      unfold F64.scaled
      simp
    rw [e2]
    simp only [hkpow, if_true]
    omega
  unfold F64.round64
  have hne : n ≠ 0 := by omega
  simp only [hne, if_false, hexp]
  have e3 : F64.scaled n 1 (-((52 - k : Nat) : Int)) = (n * 2 ^ (52 - k), 1) := by
    unfold F64.scaled
    by_cases hz : 52 - k = 0
    · simp [hz]
    · have : ¬ (0 : Int) ≤ -((52 - k : Nat) : Int) := by omega
      simp [this]
  have e4 : F64.roundHalfEven (n * 2 ^ (52 - k)) 1 = n * 2 ^ (52 - k) := by
    unfold F64.roundHalfEven
    simp [Nat.mod_one]
  have e5 : F64.scaled (n * 2 ^ (52 - k)) 1 (- -((52 - k : Nat) : Int))
      = (n * 2 ^ (52 - k), 2 ^ (52 - k)) := by
    unfold F64.scaled
    simp
  have hcond : ¬ ((971 : Int) < -((52 - k : Nat) : Int) ∨
      (-((52 - k : Nat) : Int) = 971 ∧ n * 2 ^ (52 - k) = 2 ^ 53)) := by omega
  simp only [e3, e4, e5, hcond, if_false]
  unfold F64.mkFin F64.ofNat
  have hpos : 0 < 2 ^ (52 - k) := Nat.pow_pos (by decide)
  have hg : Nat.gcd (n * 2 ^ (52 - k)) (2 ^ (52 - k)) = 2 ^ (52 - k) := by
    rw [Nat.gcd_comm]
    exact Nat.gcd_eq_left (Nat.dvd_mul_left _ _)
  simp only [hg]
  rw [Nat.mul_div_cancel _ hpos, Nat.div_self hpos]

theorem isDigit_ne (c d : Char) (h : isDigit c = true) (hd : isDigit d = false) : c ≠ d := by
  rintro rfl
  rw [h] at hd
  cases hd

theorem isDigit_not_space (c : Char) (h : isDigit c = true) : isSpace c = false := by
  unfold isDigit at h
  unfold isSpace
  simp only [decide_eq_true_eq] at h
  simp only [decide_eq_false_iff_not]
  omega

theorem readMant_digits (ds : List Char) (hd : ∀ c ∈ ds, isDigit c = true) :
    ∀ st : Mant, st.sawdot = false → (st.nd = 0 → st.mant = 0) →
      ∃ (nd : Nat) (dp : Int), readMant false ds st =
        (⟨ds.foldl (fun n c => n * 10 + digitVal c) st.mant, nd, dp, false,
          st.sawdigits || !ds.isEmpty, st.underscores⟩, []) := by
  induction ds with
  | nil =>
    intro st hdot _
    refine ⟨st.nd, st.dp, ?_⟩
    cases st
    simp_all [readMant]
  | cons c cs ih =>
    intro st hdot hinv
    have hc : isDigit c = true := hd c (by simp)
    have h1 : c ≠ '_' := isDigit_ne c '_' hc (by decide)
    have h2 : c ≠ '.' := isDigit_ne c '.' hc (by decide)
    have hcs : ∀ x ∈ cs, isDigit x = true := fun x hx => hd x (by simp [hx])
    unfold readMant
    simp only [h1, h2, if_false, hc, if_true]
    by_cases hz : c = '0' ∧ st.nd = 0
    · rw [if_pos hz]
      obtain ⟨nd, dp, h⟩ := ih hcs ⟨st.mant, st.nd, st.dp - 1, st.sawdot, true, st.underscores⟩
        hdot hinv
      refine ⟨nd, dp, ?_⟩
      rw [h]
      have hm : st.mant = 0 := hinv hz.2
      have hv : digitVal c = 0 := by rw [hz.1]; decide
      simp [hm, hv]
    · rw [if_neg hz]
      obtain ⟨nd, dp, h⟩ := ih hcs
        ⟨st.mant * (if false = true then 16 else 10) + digitVal c, st.nd + 1, st.dp, st.sawdot,
          true, st.underscores⟩ hdot (by simp)
      refine ⟨nd, dp, ?_⟩
      rw [h]
      simp

theorem special_digits (c : Char) (cs : List Char) (hc : isDigit c = true) :
    special (c :: cs) = none := by
  have h1 : c ≠ '+' := isDigit_ne c '+' hc (by decide)
  have h2 : c ≠ '-' := isDigit_ne c '-' hc (by decide)
  have h3 : c ≠ 'i' := isDigit_ne c 'i' hc (by decide)
  have h4 : c ≠ 'I' := isDigit_ne c 'I' hc (by decide)
  have h5 : c ≠ 'n' := isDigit_ne c 'n' hc (by decide)
  have h6 : c ≠ 'N' := isDigit_ne c 'N' hc (by decide)
  simp [special, h1, h2, h3, h4, h5, h6]

theorem readFloat_digits (ds : List Char) (hne : ds ≠ [])
    (hd : ∀ c ∈ ds, isDigit c = true) :
    readFloat ds = some (⟨digitsValue ds, 0, false, false⟩, false, []) := by
  cases ds with
  | nil => exact absurd rfl hne
  | cons c cs =>
    have hc : isDigit c = true := hd c (by simp)
    have h1 : c ≠ '+' := isDigit_ne c '+' hc (by decide)
    have h2 : c ≠ '-' := isDigit_ne c '-' hc (by decide)
    have hhex : (match c :: cs with
        | a :: b :: _ :: _ => decide (a = '0' ∧ (b = 'x' ∨ b = 'X'))
        | _ => false) = false := by
      cases cs with
      | nil => rfl
      | cons b rest =>
        cases rest with
        | nil => rfl
        | cons d rest2 =>
          have hb : isDigit b = true := hd b (by simp)
          have hb1 : b ≠ 'x' := isDigit_ne b 'x' hb (by decide)
          have hb2 : b ≠ 'X' := isDigit_ne b 'X' hb (by decide)
          simp [hb1, hb2]
    obtain ⟨nd, dp, h⟩ := readMant_digits (c :: cs) hd ⟨0, 0, 0, false, false, false⟩ rfl
      (fun _ => rfl)
    unfold readFloat
    simp only [h1, h2, or_self, if_false, hhex, Bool.false_eq_true, h]
    simp [digitsValue]

theorem parseFloatChars_digits (ds : List Char) (hne : ds ≠ [])
    (hd : ∀ c ∈ ds, isDigit c = true) (hv : digitsValue ds < 2 ^ 53) :
    parseFloatChars ds = (F64.ofNat (digitsValue ds), none) := by
  have hsp : special ds = none := by
    cases ds with
    | nil => exact absurd rfl hne
    | cons c cs => exact special_digits c cs (hd c (by simp))
  unfold parseFloatChars
  rw [hsp, readFloat_digits ds hne hd]
  simp only [Bool.false_eq_true, false_and, if_false, ne_eq, not_true_eq_false]
  unfold FloatLit.value
  by_cases hz : digitsValue ds = 0
  · simp [hz, F64.ofNat]
  · have hpos : 0 < digitsValue ds := Nat.pos_of_ne_zero hz
    simp [hz, round64_exact _ hpos hv]

theorem trimSpaceChars_digits (ds : List Char) (hd : ∀ c ∈ ds, isDigit c = true) :
    trimSpaceChars ds = ds := by
  have key : ∀ l : List Char, (∀ c ∈ l, isDigit c = true) → l.dropWhile isSpace = l := by
    intro l hl
    cases l with
    | nil => rfl
    | cons c cs => simp [List.dropWhile, isDigit_not_space c (hl c (by simp))]
  unfold trimSpaceChars
  rw [key ds hd, key ds.reverse (fun c hc => hd c (List.mem_reverse.mp hc))]
  simp

theorem removeAllChars_digits (x : Char) (hx : isDigit x = false) (ds : List Char)
    (hd : ∀ c ∈ ds, isDigit c = true) : removeAllChars x ds = ds := by
  unfold removeAllChars
  apply List.filter_eq_self.mpr
  intro c hc
  have := isDigit_ne c x (hd c hc) hx
  simpa using this

theorem removeAllChars_insert (x : Char) (pre post : List Char) :
    removeAllChars x (pre ++ x :: post) = removeAllChars x (pre ++ post) := by
  simp [removeAllChars, List.filter_append, List.filter_cons]

theorem removeAllChars_comm (x y : Char) (l : List Char) :
    removeAllChars x (removeAllChars y l) = removeAllChars y (removeAllChars x l) := by
  simp [removeAllChars, List.filter_filter, Bool.and_comm]

theorem stripNumber_data (t : String) :
    (stripNumber t).data =
      trimSpaceChars (t.data.filter (fun c => c != ' ' && c != ',')) := by
  unfold stripNumber removeAllChars
  simp only [List.filter_filter]
  congr 1
  apply List.filter_congr
  intro c _
  exact Bool.and_comm _ _

theorem stripNumber_digits (t : String) (hd : ∀ c ∈ t.data, isDigit c = true) :
    stripNumber t = t := by
  unfold stripNumber
  rw [removeAllChars_digits ' ' (by decide) _ hd, removeAllChars_digits ',' (by decide) _ hd,
    trimSpaceChars_digits _ hd]

/-- C8 as stated fails: what remains after stripping need not be a decimal number for the
parse to succeed (`Inf`, the hexadecimal `0x1p4`), and a decimal number can fail (`1e400`
is out of range: the error comes with `+Inf`). -/
theorem parseFloatFlexible_not_only_decimal :
    isDecimalNumber (stripNumber "Inf").data = false ∧
    parseFloatFlexible (.str "Inf") = (.inf false, none) ∧
    isDecimalNumber (stripNumber "0x1p4").data = false ∧
    parseFloatFlexible (.str "0x1p4") = (F64.ofNat 16, none) ∧
    isDecimalNumber (stripNumber "1e400").data = true ∧
    parseFloatFlexible (.str "1e400") = (.inf false, some .outOfRange) := by
  refine ⟨by decide, by decide, by decide, by decide, by decide, by decide!⟩

/-- C8, amended: on a string, `parseFloatFlexible` removes every space and every comma,
trims the surrounding white space and hands the remainder to `strconv.ParseFloat`; an
empty remainder is an error, otherwise the result is `ParseFloat`'s. So two strings that
differ only in spaces and commas give the same result, a string of decimal digits with a
value below `2^53` gives exactly that value, and `1234,56` and `1 234,56` both give
123456. -/
theorem parseFloatFlexible_string (t : String) :
    (stripNumber t).data = trimSpaceChars (t.data.filter (fun c => c != ' ' && c != ',')) ∧
    parseFloatFlexible (.str t) =
      (if stripNumber t = "" then (F64.zero, some .emptyInput)
       else parseFloat (stripNumber t)) ∧
    (∀ u : String,
      u.data.filter (fun c => c != ' ' && c != ',') =
        t.data.filter (fun c => c != ' ' && c != ',') →
      parseFloatFlexible (.str u) = parseFloatFlexible (.str t)) ∧
    (∀ pre post : List Char, t.data = pre ++ post →
      parseFloatFlexible (.str ⟨pre ++ ' ' :: post⟩) = parseFloatFlexible (.str t) ∧
      parseFloatFlexible (.str ⟨pre ++ ',' :: post⟩) = parseFloatFlexible (.str t)) ∧
    (t.data ≠ [] → (∀ c ∈ t.data, isDigit c = true) → digitsValue t.data < 2 ^ 53 →
      parseFloatFlexible (.str t) = (F64.ofNat (digitsValue t.data), none)) ∧
    parseFloatFlexible (.str "") = (F64.zero, some .emptyInput) ∧
    parseFloatFlexible (.str "  ") = (F64.zero, some .emptyInput) ∧
    parseFloatFlexible (.str " , ") = (F64.zero, some .emptyInput) ∧
    parseFloatFlexible (.str "12a") = (F64.zero, some .malformed) ∧
    parseFloatFlexible (.str "1234,56") = (F64.ofNat 123456, none) ∧
    parseFloatFlexible (.str "1 234,56") = (F64.ofNat 123456, none) := by
  have hinv : ∀ u : String,
      u.data.filter (fun c => c != ' ' && c != ',') =
        t.data.filter (fun c => c != ' ' && c != ',') →
      parseFloatFlexible (.str u) = parseFloatFlexible (.str t) := by
    intro u hu
    have hs : stripNumber u = stripNumber t := by
      apply String.ext
      rw [stripNumber_data, stripNumber_data, hu]
    simp only [parseFloatFlexible, hs]
  refine ⟨stripNumber_data t, rfl, hinv, ?_, ?_, by decide, by decide, by decide, by decide,
    by decide, by decide⟩
  · intro pre post hpp
    constructor
    · apply hinv
      simp [hpp, List.filter_append, List.filter_cons]
    · apply hinv
      simp [hpp, List.filter_append, List.filter_cons]
  · intro hne hd hv
    simp only [parseFloatFlexible, stripNumber_digits t hd]
    have hne' : t ≠ "" := by
      intro h
      apply hne
      rw [h]
    simp only [hne', if_false]
    exact parseFloatChars_digits t.data hne hd hv

theorem round64_flag (neg : Bool) (n d : Nat) (h : (F64.round64 neg n d).2 = true) :
    (F64.round64 neg n d).1 = .inf neg := by
  unfold F64.round64 at *
  by_cases hn : n = 0
  · simp [hn] at h
  · simp only [hn, if_false] at h ⊢
    by_cases hc : (971 : Int) < F64.binExp n d ∨ (F64.binExp n d = 971 ∧
        F64.roundHalfEven (F64.scaled n d (F64.binExp n d)).1
          (F64.scaled n d (F64.binExp n d)).2 = 2 ^ 53)
    · rw [if_pos hc]
    · rw [if_neg hc] at h
      cases h

theorem value_flag (l : FloatLit) (h : l.value.2 = true) : l.value.1 = .inf l.neg := by
  unfold FloatLit.value at *
  by_cases hm : l.mant = 0
  · simp [hm] at h
  · simp only [hm, if_false] at h ⊢
    by_cases he : 0 ≤ l.exp
    · simp only [he, if_true] at h ⊢
      exact round64_flag _ _ _ h
    · simp only [he, if_false] at h ⊢
      exact round64_flag _ _ _ h

theorem parseFloatChars_error (s : List Char) (e : NumErr)
    (h : (parseFloatChars s).2 = some e) :
    (e = .malformed ∧ (parseFloatChars s).1 = F64.zero) ∨
    (e = .outOfRange ∧
      ((parseFloatChars s).1 = .inf false ∨ (parseFloatChars s).1 = .inf true)) := by
  unfold parseFloatChars at *
  split at h
  · split at h
    · simp at h
    · rename_i hn
      simp only [Option.some.injEq] at h
      simp [hn, ← h]
  · split at h
    · simp only [Option.some.injEq] at h
      simp [← h]
    · rename_i lit u rest hr
      split at h
      · rename_i hu
        simp only [Option.some.injEq] at h
        simp [← h, hu]
      · rename_i hu
        split at h
        · rename_i hrest
          simp only [Option.some.injEq] at h
          simp [← h, hu, hrest]
        · rename_i hrest
          simp only [] at h
          split at h
          · rename_i hflag
            simp only [Option.some.injEq] at h
            right
            refine ⟨h.symm, ?_⟩
            simp only [hu, if_false, hrest]
            rw [value_flag lit hflag]
            cases lit.neg <;> simp
          · simp at h

theorem parseFloatFlexible_error (v : Val) (e : NumErr)
    (h : (parseFloatFlexible v).2 = some e) :
    (e ≠ .outOfRange ∧ (parseFloatFlexible v).1 = F64.zero) ∨
    (e = .outOfRange ∧
      ((parseFloatFlexible v).1 = .inf false ∨ (parseFloatFlexible v).1 = .inf true)) := by
  cases v with
  | float f => simp [parseFloatFlexible] at h
  | number s =>
    simp only [parseFloatFlexible, parseFloat] at h ⊢
    rcases parseFloatChars_error s.data e h with ⟨he, hz⟩ | ⟨he, hz⟩
    · exact Or.inl ⟨by rw [he]; decide, hz⟩
    · exact Or.inr ⟨he, hz⟩
  | str s =>
    simp only [parseFloatFlexible] at h ⊢
    by_cases hs : stripNumber s = ""
    · simp only [hs, if_true, Option.some.injEq] at h ⊢
      exact Or.inl ⟨by rw [← h]; decide, trivial⟩
    · simp only [hs, if_false, parseFloat] at h ⊢
      rcases parseFloatChars_error _ e h with ⟨he, hz⟩ | ⟨he, hz⟩
      · exact Or.inl ⟨by rw [he]; decide, hz⟩
      · exact Or.inr ⟨he, hz⟩
  | int i =>
    simp only [parseFloatFlexible, Option.some.injEq] at h ⊢
    exact Or.inl ⟨by rw [← h]; decide, trivial⟩
  | bool b =>
    simp only [parseFloatFlexible, Option.some.injEq] at h ⊢
    exact Or.inl ⟨by rw [← h]; decide, trivial⟩
  | null =>
    simp only [parseFloatFlexible, Option.some.injEq] at h ⊢
    exact Or.inl ⟨by rw [← h]; decide, trivial⟩
  | composite shown =>
    simp only [parseFloatFlexible, Option.some.injEq] at h ⊢
    exact Or.inl ⟨by rw [← h]; decide, trivial⟩

theorem parseFloatChars_not_unsupported (s : List Char) :
    (parseFloatChars s).2 ≠ some .unsupported := by
  intro h
  rcases parseFloatChars_error s _ h with ⟨he, _⟩ | ⟨he, _⟩ <;> cases he

/-- C9 as stated fails: a native integer, such as the `okpo` that enrichment stores, is not
accepted (unsupported type, value 0), and a JSON number can fail to parse (`1e400` is out
of range). -/
theorem parseFloatFlexible_int_unsupported :
    parseFloatFlexible (.int 61500001) = (F64.zero, some .unsupported) ∧
    (∀ tbl : Char → Char,
      (enrich tbl (.map [("soato_tum", .str "41001")])).map
        (fun m => m.entries.lookup "okpo") = some (some (.int 61500001))) ∧
    (∀ tbl : Char → Char,
      (enrich tbl (.map [("soato_tum", .str "41001")])).map
        (fun m => toFloat m.entries "okpo") = some F64.zero) ∧
    parseFloatFlexible (.number "1e400") = (.inf false, some .outOfRange) := by
  refine ⟨by decide, ?_, ?_, by decide!⟩
  · intro tbl
    rw [enrich_ascii tbl (fun c => c) _ (by decide)]
    decide
  · intro tbl
    rw [enrich_ascii tbl (fun c => c) _ (by decide)]
    decide

/-- C9, amended: `parseFloatFlexible` returns a native float unchanged; for a JSON number it
returns what `strconv.ParseFloat` makes of the number's text (the exact value for digits
below `2^53`); and it returns the unsupported-type error exactly for the values that are
neither a native float, nor a JSON number, nor a string, native integers among them. -/
theorem parseFloatFlexible_by_type (v : Val) :
    (∀ f : F64, v = .float f → parseFloatFlexible v = (f, none)) ∧
    (∀ s : String, v = .number s → parseFloatFlexible v = parseFloat s) ∧
    (∀ s : String, v = .number s → s.data ≠ [] → (∀ c ∈ s.data, isDigit c = true) →
      digitsValue s.data < 2 ^ 53 →
      parseFloatFlexible v = (F64.ofNat (digitsValue s.data), none)) ∧
    ((parseFloatFlexible v).2 = some .unsupported ↔
      (∀ f : F64, v ≠ .float f) ∧ (∀ s : String, v ≠ .number s) ∧
        (∀ s : String, v ≠ .str s)) ∧
    (∀ i : Int, v = .int i → parseFloatFlexible v = (F64.zero, some .unsupported)) := by
  refine ⟨?_, ?_, ?_, ?_, ?_⟩
  · rintro f rfl; rfl
  · rintro s rfl; rfl
  · rintro s rfl hne hd hv
    exact parseFloatChars_digits s.data hne hd hv
  · cases v with
    | float f => simp [parseFloatFlexible]
    | number s =>
      simp only [parseFloatFlexible, parseFloat]
      constructor
      · intro h; exact absurd h (parseFloatChars_not_unsupported _)
      · intro h; exact absurd rfl (h.2.1 s)
    | str s =>
      constructor
      · intro h
        simp only [parseFloatFlexible] at h
        by_cases hs : stripNumber s = ""
        · simp [hs] at h
        · simp only [hs, if_false, parseFloat] at h
          exact absurd h (parseFloatChars_not_unsupported _)
      · intro h; exact absurd rfl (h.2.2 s)
    | int i => simp [parseFloatFlexible]
    | bool b => simp [parseFloatFlexible]
    | null => simp [parseFloatFlexible]
    | composite shown => simp [parseFloatFlexible]
  · rintro i rfl; rfl

theorem groupStep_eq (groupKeys : List String) (valKey : String) (sums : Buckets) (m : rec) :
    groupStep groupKeys valKey sums m =
      match specKey m groupKeys with
      | none => sums
      | some key => bucketAdd sums key (toFloat m valKey) := by
  unfold groupStep
  rw [← keyParts_eq_specKey]
  cases keyParts m groupKeys <;> rfl

/-- C10 as stated fails: on an out-of-range number `parseFloatFlexible` fails, yet `toFloat`
returns the infinity that came with the error, and the bucket becomes infinite. -/
theorem toFloat_out_of_range :
    (parseFloatFlexible (.str "1e400")).2 = some .outOfRange ∧
    toFloat [("g", .str "A"), ("v", .str "1e400")] "v" = .inf false ∧
    groupSum [[("g", .str "A"), ("v", .str "1e400")]] ["g"] "v" = [("A", .inf false)] := by
  refine ⟨by decide!, by decide!, by decide!⟩

/-- C10, amended: when `parseFloatFlexible` fails on the field's value with any error but a
range error (non-numeric or empty string, malformed number, unsupported type), `toFloat`
returns 0 and the record adds exactly 0 to its bucket in `groupSum`; on a range error
`toFloat` returns the infinity that `ParseFloat` gave with the error. -/
theorem toFloat_on_failure (m : rec) (key : String) (v : Val) (e : NumErr)
    (hv : m.lookup key = some v) (he : (parseFloatFlexible v).2 = some e) :
    (e ≠ .outOfRange → toFloat m key = F64.zero) ∧
    (e ≠ .outOfRange → ∀ (groupKeys : List String) (sums : Buckets),
      groupStep groupKeys key sums m =
        match specKey m groupKeys with
        | none => sums
        | some k => bucketAdd sums k F64.zero) ∧
    (e = .outOfRange → toFloat m key = .inf false ∨ toFloat m key = .inf true) := by
  have ht : toFloat m key = (parseFloatFlexible v).1 := by
    unfold toFloat
    rw [hv]
  have hz : e ≠ .outOfRange → toFloat m key = F64.zero := by
    intro hne
    rcases parseFloatFlexible_error v e he with ⟨_, h0⟩ | ⟨h1, _⟩
    · rw [ht, h0]
    · exact absurd h1 hne
  refine ⟨hz, ?_, ?_⟩
  · intro hne groupKeys sums
    rw [groupStep_eq, hz hne]
  · intro heq
    rcases parseFloatFlexible_error v e he with ⟨h0, _⟩ | ⟨_, h1⟩
    · exact absurd heq h0
    · rw [ht]; exact h1

/-- C10 at a concrete record: a non-numeric value. -/
theorem toFloat_on_failure_witness :
    (parseFloatFlexible (.str "abc")).2 = some .malformed ∧
    toFloat [("g", .str "A"), ("v", .str "abc")] "v" = F64.zero :=
  ⟨by decide,
   (toFloat_on_failure [("g", .str "A"), ("v", .str "abc")] "v" (.str "abc") .malformed
      (by decide) (by decide)).1 (by decide)⟩

/-! ## Lemmas on the integer and string coercions -/

theorem parseIntChars_cases (s : List Char) :
    ((parseIntChars s).2 = none ∧ -(2 ^ 63 : Int) ≤ (parseIntChars s).1 ∧
      (parseIntChars s).1 < (2 ^ 63 : Int)) ∨
    ((parseIntChars s).2 = some .malformed ∧ (parseIntChars s).1 = 0) ∨
    ((parseIntChars s).2 = some .outOfRange ∧
      ((parseIntChars s).1 = (2 ^ 63 - 1 : Int) ∨ (parseIntChars s).1 = -(2 ^ 63 : Int))) := by
  cases s with
  | nil => simp [parseIntChars]
  | cons c cs =>
    simp only [parseIntChars]
    generalize (if c = '+' ∨ c = '-' then cs else c :: cs) = body
    generalize parseUintLoop body 0 = r
    split_ifs with h0 h1 h2 h3 h4
    · simp
    · simp
    · simp
    · simp
    · left
      refine ⟨rfl, ?_⟩
      have h3' : r.1 ≤ 2 ^ 63 := by
        by_contra hlt
        exact h3 ⟨h4, by omega⟩
      simp only []
      omega
    · left
      refine ⟨rfl, ?_⟩
      have h2' : r.1 < 2 ^ 63 := by
        by_contra hlt
        exact h2 ⟨h4, by omega⟩
      simp only []
      omega

theorem F64_toInt_range (f : F64) :
    -(2 ^ 63 : Int) ≤ f.toInt ∧ f.toInt < (2 ^ 63 : Int) := by
  cases f with
  | fin s n d =>
    simp only [F64.toInt]
    split_ifs with h1 h2 h3
    · exact h2
    · omega
    · exact h3
    · omega
  | inf neg => simp [F64.toInt]
  | nan => simp [F64.toInt]

/-- C11 as stated fails: `strconv.Atoi` cannot parse a digit string outside the `int64`
range, yet `toInt` returns the bound that came with the error, not 0. -/
theorem toInt_out_of_range :
    (atoi (trimSpace "99999999999999999999")).2 = some .outOfRange ∧
    toInt [("k", .str "99999999999999999999")] "k" = 9223372036854775807 ∧
    toInt [("k", .number "-99999999999999999999")] "k" = -9223372036854775808 := by
  decide

/-- C11, amended: for a key absent from the record `toFloat` is 0, `toInt` is 0 and
`toString` is the empty string; `toString` of a present value is its default formatting;
`toInt` is a total function into the `int64` range that returns 0 for a string (or JSON
number) that `strconv` rejects with a syntax error and for an unsupported type, and the
nearest `int64` bound for an integer literal out of range. -/
theorem coercions_total (m : rec) (k : String) :
    (m.lookup k = none → toFloat m k = F64.zero ∧ toInt m k = 0 ∧ toString m k = "") ∧
    (∀ v : Val, m.lookup k = some v → toString m k = sprintV (some v)) ∧
    (∀ t : String, m.lookup k = some (.str t) →
      (atoi (trimSpace t)).2 = some .malformed → toInt m k = 0) ∧
    (∀ t : String, m.lookup k = some (.number t) →
      (parseInt t).2 = some .malformed → toInt m k = 0) ∧
    (∀ t : String, m.lookup k = some (.str t) →
      (atoi (trimSpace t)).2 = some .outOfRange →
      toInt m k = (2 ^ 63 - 1 : Int) ∨ toInt m k = -(2 ^ 63 : Int)) ∧
    (∀ v : Val, m.lookup k = some v → (∀ f : F64, v ≠ .float f) →
      (∀ s : String, v ≠ .number s) → (∀ s : String, v ≠ .str s) → toInt m k = 0) ∧
    (-(2 ^ 63 : Int) ≤ toInt m k ∧ toInt m k < (2 ^ 63 : Int)) := by
  refine ⟨?_, ?_, ?_, ?_, ?_, ?_, ?_⟩
  · intro h
    simp [toFloat, toInt, toString, h]
  · intro v h
    simp [toString, h]
  · intro t h he
    simp only [toInt, h]
    rcases parseIntChars_cases (trimSpace t).data with h1 | h1 | h1
    · rw [atoi, h1.1] at he; cases he
    · exact h1.2
    · rw [atoi, h1.1] at he; cases he
  · intro t h he
    simp only [toInt, h]
    rcases parseIntChars_cases t.data with h1 | h1 | h1
    · rw [parseInt, h1.1] at he; cases he
    · exact h1.2
    · rw [parseInt, h1.1] at he; cases he
  · intro t h he
    simp only [toInt, h]
    rcases parseIntChars_cases (trimSpace t).data with h1 | h1 | h1
    · rw [atoi, h1.1] at he; cases he
    · rw [atoi, h1.1] at he; cases he
    · exact h1.2
  · intro v h hf hn hs
    cases v with
    | float f => exact absurd rfl (hf f)
    | number s => exact absurd rfl (hn s)
    | str s => exact absurd rfl (hs s)
    | int i => simp [toInt, h]
    | bool b => simp [toInt, h]
    | null => simp [toInt, h]
    | composite shown => simp [toInt, h]
  · unfold toInt
    cases h : m.lookup k with
    | none => simp
    | some v =>
      cases v with
      | float f => exact F64_toInt_range f
      | number s =>
        simp only [parseInt]
        rcases parseIntChars_cases s.data with h1 | h1 | h1
        · exact h1.2
        · rw [h1.2]; decide
        · rcases h1.2 with h2 | h2 <;> rw [h2] <;> decide
      | str s =>
        simp only [atoi]
        rcases parseIntChars_cases (trimSpace s).data with h1 | h1 | h1
        · exact h1.2
        · rw [h1.2]; decide
        · rcases h1.2 with h2 | h2 <;> rw [h2] <;> decide
      | int i => simp
      | bool b => simp
      | null => simp
      | composite shown => simp

/-- C12: a malformed data row does not make `readCSV` return an error. The loop leaves by
`break` on every error of `r.Read()`, so the rows read before the malformed one are
returned with a nil error and the rows after it are lost; once the header is read no
error is ever returned. A short row gives a record without the trailing header fields. -/
theorem readCSV_malformed_row_truncates :
    readCSV (some [.row ["g", "v"], .row ["A", "10"], .row ["B"], .parseError,
        .row ["C", "7"]])
      = ([[("v", .str "10"), ("g", .str "A")], [("g", .str "B")]], none) ∧
    (∀ (header : List String) (rest : List CsvRead),
      (readCSV (some (.row header :: rest))).2 = none) ∧
    readCSV (some [.parseError, .row ["A", "10"]]) = ([], some .badRow) := by
  refine ⟨by decide, ?_, by decide⟩
  intro header rest
  rfl

/-! ## Lemmas on enrichment and the pass-2 flag -/

theorem sprintV_withNs_ns (m : rec) :
    sprintV ((withNs m).lookup "ns") =
      if sprintV (m.lookup "oked") = "350" ∨ sprintV (m.lookup "oked") = "360" then "42"
      else "41" := by
  unfold withNs
  rw [lookup_set, if_pos rfl]
  by_cases h : sprintV (m.lookup "oked") = "350" ∨ sprintV (m.lookup "oked") = "360"
  · rw [if_pos h, if_pos h]
    rfl
  · rw [if_neg h, if_neg h]
    rfl

theorem lookup_withNs_ne (m : rec) (key : String) (h : key ≠ "ns") :
    (withNs m).lookup key = m.lookup key := by
  unfold withNs
  rw [lookup_set]
  simp [h]

/-- C14: the flag stored under `ns` on the per-pass copy of a record, and so the first
component of its pass-2 grouping key, is 42 when the record's `oked` prints as `350` or
`360` and 41 in every other case, an absent `oked` included; the copy holds every other
field of the record unchanged, and the record itself (which pass 1 reads) is not
written. -/
theorem withNs_flag (m : rec) :
    (withNs m).lookup "ns" = some (.int
      (if sprintV (m.lookup "oked") = "350" ∨ sprintV (m.lookup "oked") = "360" then 42
       else 41)) ∧
    (sprintV (m.lookup "oked") = "350" ∨ sprintV (m.lookup "oked") = "360" →
      ∀ kcol : String, ∀ parts : List String,
        keyParts (withNs m) ["ns", kcol] = some parts → parts.head? = some "42") ∧
    (¬ (sprintV (m.lookup "oked") = "350" ∨ sprintV (m.lookup "oked") = "360") →
      ∀ kcol : String, ∀ parts : List String,
        keyParts (withNs m) ["ns", kcol] = some parts → parts.head? = some "41") ∧
    (m.lookup "oked" = none → (withNs m).lookup "ns" = some (.int 41)) ∧
    (∀ key : String, key ≠ "ns" → (withNs m).lookup key = m.lookup key) ∧
    (∀ (all : List rec) (kcol vcol : String),
      pass1 all kcol vcol = groupSum all [kcol] vcol ∧
      pass2 all kcol vcol = groupSum (all.map withNs) ["ns", kcol] vcol) := by
  have hns := sprintV_withNs_ns m
  refine ⟨?_, ?_, ?_, ?_, lookup_withNs_ne m, fun _ _ _ => ⟨rfl, rfl⟩⟩
  · unfold withNs
    rw [lookup_set]
    simp
  · intro h kcol parts hp
    rw [if_pos h] at hns
    simp only [keyParts, hns] at hp
    have h42 : ¬ ("42" : String) = "" := by decide
    simp only [h42, if_false, Option.map_eq_some'] at hp
    obtain ⟨a, _, rfl⟩ := hp
    rfl
  · intro h kcol parts hp
    rw [if_neg h] at hns
    simp only [keyParts, hns] at hp
    have h41 : ¬ ("41" : String) = "" := by decide
    simp only [h41, if_false, Option.map_eq_some'] at hp
    obtain ⟨a, _, rfl⟩ := hp
    rfl
  · intro h
    unfold withNs
    rw [lookup_set, h]
    have h1 : ¬ (sprintV none = "350" ∨ sprintV none = "360") := by decide
    simp [h1]

/-- C15: the enrichment loop does not reach every record. The nil map that a JSON `null`
leaves has no `oked` and no `name_liter`, and instead of leaving it without `oked` the
loop panics at the store of `okpo`. On every map that is not nil the claim holds:
enrichment sets `oked` to `okedQosh` of the formatted `name_liter` exactly when the record
has no `oked` and `name_liter` formats (through `toString`) to a non-empty string; an
existing `oked` is kept, a record with no `oked` and an absent or empty `name_liter` still
has no `oked`, and no field other than `oked`, `okpo` and `soato` is changed. -/
theorem enrich_oked (tbl : Char → Char) :
    (MapRef.nilMap.entries.lookup "oked" = none ∧
      toString MapRef.nilMap.entries "name_liter" = "" ∧ enrich tbl .nilMap = none) ∧
    (∀ m : rec, ∃ r : rec, enrich tbl (.map m) = some (.map r) ∧
      (m.lookup "oked" = none → toString m "name_liter" ≠ "" →
        r.lookup "oked" = some (.int (okedQosh tbl (toString m "name_liter")))) ∧
      (∀ v : Val, m.lookup "oked" = some v → r.lookup "oked" = some v) ∧
      (m.lookup "oked" = none → toString m "name_liter" = "" → r.lookup "oked" = none) ∧
      (toString m "name_liter" = "" ↔
        m.lookup "name_liter" = none ∨ sprintV (m.lookup "name_liter") = "") ∧
      (∀ key : String, key ≠ "oked" → key ≠ "okpo" → key ≠ "soato" →
        r.lookup key = m.lookup key)) := by
  refine ⟨⟨rfl, rfl, enrich_nilMap tbl⟩, ?_⟩
  intro m
  obtain ⟨r, hr, _, _, ho, hframe⟩ := enrich_map tbl m
  refine ⟨r, hr, ?_, ?_, ?_, ?_, hframe⟩
  · intro h hs
    rw [ho, h]
    simp [hs]
  · intro v h
    rw [ho, h]
    simp
  · intro h hs
    rw [ho, h]
    simp [hs]
  · unfold toString
    cases h : m.lookup "name_liter" with
    | none => simp
    | some v => simp

theorem mesScan_range (sel : String) (names : List String) :
    ∀ i : Int, mesScan sel names i = 12 ∨
      (i + 1 ≤ mesScan sel names i ∧ mesScan sel names i ≤ i + names.length) := by
  induction names with
  | nil => intro i; exact Or.inl rfl
  | cons name rest ih =>
    intro i
    unfold mesScan
    split
    · right
      simp only [List.length_cons, Nat.cast_add, Nat.cast_one]
      omega
    · rcases ih (i + 1) with h | h
      · exact Or.inl h
      · right
        simp only [List.length_cons, Nat.cast_add, Nat.cast_one]
        omega

/-- C18: the period is 12 in annual mode; otherwise, for the month name at 1-based position
`i` of the table `oylar` (Yanvar … Dekabr), it is `i`; and for every selection, a name that
is not in the table included, it lies in 1..12. -/
theorem mes_spec :
    oylar = ["Yanvar", "Fevral", "Mart", "Aprel", "May", "Iyun", "Iyul", "Avgust", "Sentabr",
      "Oktabr", "Noyabr", "Dekabr"] ∧
    (∀ sel : String, mes true sel = 12) ∧
    (∀ i : Fin oylar.length, mes false (oylar.get i) = (i.val : Int) + 1) ∧
    (∀ (yillik : Bool) (sel : String), 1 ≤ mes yillik sel ∧ mes yillik sel ≤ 12) := by
  refine ⟨rfl, fun _ => rfl, by decide, ?_⟩
  intro yillik sel
  unfold mes
  cases yillik with
  | true => simp
  | false =>
    simp only [Bool.false_eq_true, if_false]
    have hlen : ((oylar.length : Nat) : Int) = 12 := by decide
    rcases mesScan_range sel oylar 0 with h | h
    · rw [h]; decide
    · rw [hlen] at h
      omega

/-- C13: the codes of an output row are not always the codes that enrichment wrote on the
records of its group. Enrichment reads `soato_tum` through `toInt`, which trims a string
and truncates a float; the row is derived by `strconv.Atoi` from the key, the `%v` form
of the value. For the string ` 41001` (leading space) and for the float `1726264501`
(printed `1.726264501e+09`) `Atoi` fails and the row gets `okpo = 61500000`, `soato = 0`.
The two agree for a string that has no surrounding white space and no `|`. -/
theorem row_codes_differ_from_enrichment (tbl : Char → Char) :
    (enrich tbl (.map [("soato_tum", .str " 41001"), ("qiymat", .str "1000")])).map
      (fun m => m.entries.lookup "okpo") = some (some (.int 61500001)) ∧
    (enrich tbl (.map [("soato_tum", .str " 41001"), ("qiymat", .str "1000")])).map
      (fun m => m.entries.lookup "soato") = some (some (.int 41)) ∧
    pipeline tbl [.map [("soato_tum", .str " 41001"), ("qiymat", .str "1000")]]
        "soato_tum" "qiymat" 3
      = some [⟨3, 61500000, 0, 1, 12, F64.ofNat 1⟩, ⟨3, 61500000, 0, 1, 41, F64.ofNat 1⟩] ∧
    (enrich tbl (.map [("soato_tum", .float (F64.ofNat 1726264501)),
        ("qiymat", .str "1000")])).map
      (fun m => m.entries.lookup "okpo") = some (some (.int 61500501)) ∧
    (enrich tbl (.map [("soato_tum", .float (F64.ofNat 1726264501)),
        ("qiymat", .str "1000")])).map
      (fun m => m.entries.lookup "soato") = some (some (.int 1726264)) ∧
    sprintV (some (.float (F64.ofNat 1726264501))) = "1.726264501e+09" ∧
    pipeline tbl [.map [("soato_tum", .float (F64.ofNat 1726264501)),
        ("qiymat", .str "1000")]] "soato_tum" "qiymat" 3
      = some [⟨3, 61500000, 0, 1, 12, F64.ofNat 1⟩, ⟨3, 61500000, 0, 1, 41, F64.ofNat 1⟩] ∧
    (∀ (m : rec) (t : String), m.lookup "soato_tum" = some (.str t) → trimSpace t = t →
      '|' ∉ t.data → keyCode (sprintV (m.lookup "soato_tum")) = toInt m "soato_tum") := by
  refine ⟨?_, ?_, ?_, ?_, ?_, by decide, ?_, ?_⟩
  · rw [enrich_ascii tbl (fun c => c) _ (by decide)]
    decide
  · rw [enrich_ascii tbl (fun c => c) _ (by decide)]
    decide
  · rw [pipeline_ascii tbl (fun c => c) _ _ _ _ (by decide)]
    decide
  · rw [enrich_ascii tbl (fun c => c) _ (by decide)]
    decide
  · rw [enrich_ascii tbl (fun c => c) _ (by decide)]
    decide
  · rw [pipeline_ascii tbl (fun c => c) _ _ _ _ (by decide)]
    decide
  · intro m t hm ht hbar
    simp only [hm, sprintV, toInt, ht, keyCode, firstField_of_no_bar t hbar]

/-! ## Lemmas on determinism of the sorted lists -/

theorem strict1_of_sorted (sums1 : Buckets) (n1 : (sums1.map Prod.fst).Nodup)
    (l : List KV) (hp : l.Perm (collect1 sums1))
    (hs : l.Pairwise (fun a b => less1 b a = false)) :
    l.Pairwise (fun a b => a.Key < b.Key) := by
  have hnd : (l.map KV.Key).Nodup := by
    have hp' : (l.map KV.Key).Perm ((collect1 sums1).map KV.Key) := hp.map _
    rw [keys_collect1] at hp'
    exact hp'.nodup_iff.mpr n1
  refine (hs.and (List.pairwise_map.mp hnd)).imp ?_
  rintro a b ⟨hle, hne⟩
  exact lt_of_le_of_ne ((strLess_false_iff _ _).mp hle) hne

theorem strict2_of_sorted (sums2 : Buckets) (n2 : (sums2.map Prod.fst).Nodup)
    (l : List NSKV) (hp : l.Perm (collect2 sums2))
    (hs : l.Pairwise (fun a b => less2 b a = false)) :
    l.Pairwise (fun a b => a.NS < b.NS ∨ (a.NS = b.NS ∧ a.K < b.K)) := by
  have hnd : (l.map (fun r => (⟨r.NS.data ++ '|' :: r.K.data⟩ : String))).Nodup := by
    have hp' := hp.map (fun r => (⟨r.NS.data ++ '|' :: r.K.data⟩ : String))
    exact hp'.nodup_iff.mpr ((sublist_keys_collect2 sums2).nodup n2)
  refine (hs.and (List.pairwise_map.mp hnd)).imp ?_
  rintro a b ⟨hle, hne⟩
  rcases (less2_false_iff a b).mp hle with hlt | ⟨heq, hk⟩
  · exact Or.inl hlt
  · refine Or.inr ⟨heq, lt_of_le_of_ne hk ?_⟩
    intro hkk
    exact hne (by rw [heq, hkk])

theorem unique_sorted1 (l l' : List KV) (hp : l.Perm l')
    (hs : l.Pairwise (fun a b => a.Key < b.Key))
    (hs' : l'.Pairwise (fun a b => a.Key < b.Key)) : l = l' := by
  haveI : IsAntisymm KV (fun a b => a.Key < b.Key) :=
    ⟨fun a b h1 h2 => absurd h1 (lt_asymm h2)⟩
  exact List.eq_of_perm_of_sorted hp hs hs'

theorem unique_sorted2 (l l' : List NSKV) (hp : l.Perm l')
    (hs : l.Pairwise (fun a b => a.NS < b.NS ∨ (a.NS = b.NS ∧ a.K < b.K)))
    (hs' : l'.Pairwise (fun a b => a.NS < b.NS ∨ (a.NS = b.NS ∧ a.K < b.K))) : l = l' := by
  haveI : IsAntisymm NSKV (fun a b => a.NS < b.NS ∨ (a.NS = b.NS ∧ a.K < b.K)) :=
    ⟨fun a b h1 h2 => by
      rcases h1 with h1 | ⟨e1, k1⟩ <;> rcases h2 with h2 | ⟨e2, k2⟩
      · exact absurd h1 (lt_asymm h2)
      · rw [e2] at h1; exact absurd h1 (lt_irrefl _)
      · rw [e1] at h2; exact absurd h2 (lt_irrefl _)
      · exact absurd k1 (lt_asymm k2)⟩
  exact List.eq_of_perm_of_sorted hp hs hs'

theorem collect1_perm (sums1 sums1' : Buckets) (h : sums1.Perm sums1') :
    (collect1 sums1).Perm (collect1 sums1') := h.map _

theorem collect2_perm (sums2 sums2' : Buckets) (h : sums2.Perm sums2') :
    (collect2 sums2).Perm (collect2 sums2') := h.filterMap _

/-- C17: the rows do not depend on the order in which the two maps are enumerated. For two
enumerations of the same pass-1 buckets and of the same pass-2 buckets (no key twice), the
sorted lists `out1` and `out2`, and so the rows, are equal; indeed every list that a sort
by `less` can return is the same list, because the pass-1 keys are pairwise distinct and
so are the pass-2 (flag, key) pairs. -/
theorem materialize_deterministic (sums1 sums1' sums2 sums2' : Buckets) (p : Int)
    (h1 : sums1.Perm sums1') (h2 : sums2.Perm sums2')
    (n1 : (sums1.map Prod.fst).Nodup) (n2 : (sums2.map Prod.fst).Nodup) :
    out1 sums1 = out1 sums1' ∧ out2 sums2 = out2 sums2' ∧
    materialize sums1 sums2 p = materialize sums1' sums2' p ∧
    (∀ l : List KV, l.Perm (collect1 sums1') →
      l.Pairwise (fun a b => less1 b a = false) → l = out1 sums1) ∧
    (∀ l : List NSKV, l.Perm (collect2 sums2') →
      l.Pairwise (fun a b => less2 b a = false) → l = out2 sums2) ∧
    ((collect1 sums1).map KV.Key).Nodup ∧
    ((collect2 sums2).map (fun r => (r.NS, r.K))).Nodup := by
  have u1 : ∀ l : List KV, l.Perm (collect1 sums1') →
      l.Pairwise (fun a b => less1 b a = false) → l = out1 sums1 := by
    intro l hp hs
    have hp1 : l.Perm (collect1 sums1) := hp.trans (collect1_perm _ _ h1).symm
    apply unique_sorted1 l (out1 sums1) (hp1.trans (perm_sortSlice _ _).symm)
    · exact strict1_of_sorted sums1 n1 l hp1 hs
    · exact strict1_of_sorted sums1 n1 _ (perm_sortSlice _ _)
        (pairwise_sortSlice less1 less1_asymm less1_trans _)
  have u2 : ∀ l : List NSKV, l.Perm (collect2 sums2') →
      l.Pairwise (fun a b => less2 b a = false) → l = out2 sums2 := by
    intro l hp hs
    have hp2 : l.Perm (collect2 sums2) := hp.trans (collect2_perm _ _ h2).symm
    apply unique_sorted2 l (out2 sums2) (hp2.trans (perm_sortSlice _ _).symm)
    · exact strict2_of_sorted sums2 n2 l hp2 hs
    · exact strict2_of_sorted sums2 n2 _ (perm_sortSlice _ _)
        (pairwise_sortSlice less2 less2_asymm less2_trans _)
  have e1 : out1 sums1 = out1 sums1' :=
    (u1 (out1 sums1') (perm_sortSlice _ _)
      (pairwise_sortSlice less1 less1_asymm less1_trans _)).symm
  have e2 : out2 sums2 = out2 sums2' :=
    (u2 (out2 sums2') (perm_sortSlice _ _)
      (pairwise_sortSlice less2 less2_asymm less2_trans _)).symm
  refine ⟨e1, e2, ?_, u1, u2, ?_, ?_⟩
  · unfold materialize
    rw [e1, e2]
  · rw [keys_collect1]; exact n1
  · have hnd := (sublist_keys_collect2 sums2).nodup n2
    have hcomp : (collect2 sums2).map (fun r => (⟨r.NS.data ++ '|' :: r.K.data⟩ : String))
        = ((collect2 sums2).map (fun r => (r.NS, r.K))).map
            (fun q => (⟨q.1.data ++ '|' :: q.2.data⟩ : String)) := by
      rw [List.map_map]
      rfl
    rw [hcomp] at hnd
    exact List.Nodup.of_map _ hnd

/-- C17 at concrete maps: the same two buckets per pass in two enumeration orders. -/
theorem materialize_deterministic_witness :
    out1 [("41002", F64.ofNat 2000), ("41001", F64.ofNat 1000)]
      = out1 [("41001", F64.ofNat 1000), ("41002", F64.ofNat 2000)] ∧
    out2 [("42|41002", F64.ofNat 2000), ("41|41001", F64.ofNat 1000)]
      = out2 [("41|41001", F64.ofNat 1000), ("42|41002", F64.ofNat 2000)] ∧
    materialize [("41002", F64.ofNat 2000), ("41001", F64.ofNat 1000)]
        [("42|41002", F64.ofNat 2000), ("41|41001", F64.ofNat 1000)] 12
      = materialize [("41001", F64.ofNat 1000), ("41002", F64.ofNat 2000)]
        [("41|41001", F64.ofNat 1000), ("42|41002", F64.ofNat 2000)] 12 :=
  ⟨(materialize_deterministic [("41002", F64.ofNat 2000), ("41001", F64.ofNat 1000)]
      [("41001", F64.ofNat 1000), ("41002", F64.ofNat 2000)]
      [("42|41002", F64.ofNat 2000), ("41|41001", F64.ofNat 1000)]
      [("41|41001", F64.ofNat 1000), ("42|41002", F64.ofNat 2000)] 12
      (List.Perm.swap _ _ _) (List.Perm.swap _ _ _) (by decide) (by decide)).1,
   (materialize_deterministic [("41002", F64.ofNat 2000), ("41001", F64.ofNat 1000)]
      [("41001", F64.ofNat 1000), ("41002", F64.ofNat 2000)]
      [("42|41002", F64.ofNat 2000), ("41|41001", F64.ofNat 1000)]
      [("41|41001", F64.ofNat 1000), ("42|41002", F64.ofNat 2000)] 12
      (List.Perm.swap _ _ _) (List.Perm.swap _ _ _) (by decide) (by decide)).2.1,
   (materialize_deterministic [("41002", F64.ofNat 2000), ("41001", F64.ofNat 1000)]
      [("41001", F64.ofNat 1000), ("41002", F64.ofNat 2000)]
      [("42|41002", F64.ofNat 2000), ("41|41001", F64.ofNat 1000)]
      [("41|41001", F64.ofNat 1000), ("42|41002", F64.ofNat 2000)] 12
      (List.Perm.swap _ _ _) (List.Perm.swap _ _ _) (by decide) (by decide)).2.2.1⟩

/-! ## Lemmas on `translitLower` -/

theorem toNat_ofNat_valid (n : Nat) (h : n.isValidChar) : (Char.ofNat n).toNat = n := by
  unfold Char.ofNat
  rw [dif_pos h]
  unfold Char.ofNatAux Char.toNat
  have hlt : n < UInt32.size := by
    unfold Nat.isValidChar at h
    unfold UInt32.size
    omega
  simp [UInt32.toNat, Nat.mod_eq_of_lt hlt]

theorem char_eq_of_toNat (c d : Char) (h : c.toNat = d.toNat) : c = d := by
  rw [← Char.ofNat_toNat c, ← Char.ofNat_toNat d, h]

theorem toLowerRune_low (tbl : Char → Char) (x : Char) (h : x.toNat ≤ 127)
    (hu : ¬ (65 ≤ x.toNat ∧ x.toNat ≤ 90)) : toLowerRune tbl x = x := by
  unfold toLowerRune
  rw [if_pos h, if_neg hu]

theorem toLowerRune_high (tbl : Char → Char) (x : Char) (h : ¬ x.toNat ≤ 127) :
    toLowerRune tbl x = tbl x := by
  unfold toLowerRune
  rw [if_neg h]

theorem foldRune_idem (tbl : Char → Char)
    (hidem : ∀ c : Char, toLowerRune tbl (toLowerRune tbl c) = toLowerRune tbl c)
    (c : Char) :
    translitRune (toLowerRune tbl (translitRune (toLowerRune tbl c))) =
      translitRune (toLowerRune tbl c) := by
  generalize hx : toLowerRune tbl c = x
  have hxx : toLowerRune tbl x = x := by rw [← hx, hidem]
  have hg : toLowerRune tbl 'g' = 'g' := toLowerRune_low tbl _ (by decide) (by decide)
  have hh : toLowerRune tbl 'h' = 'h' := toLowerRune_low tbl _ (by decide) (by decide)
  have hq : toLowerRune tbl 'q' = 'q' := toLowerRune_low tbl _ (by decide) (by decide)
  have ho : toLowerRune tbl 'o' = 'o' := toLowerRune_low tbl _ (by decide) (by decide)
  by_cases h1 : x = 'ғ'
  · rw [h1, show translitRune 'ғ' = 'g' from by decide, hg]
    decide
  · by_cases h2 : x = 'ҳ'
    · rw [h2, show translitRune 'ҳ' = 'h' from by decide, hh]
      decide
    · by_cases h3 : x = 'қ'
      · rw [h3, show translitRune 'қ' = 'q' from by decide, hq]
        decide
      · by_cases h4 : x = 'ў'
        · rw [h4, show translitRune 'ў' = 'o' from by decide, ho]
          decide
        · have ht : translitRune x = x := by
            unfold translitRune
            simp only [h1, h2, h3, h4, if_false]
          rw [ht, hxx, ht]

theorem translitLower_idem (tbl : Char → Char)
    (hidem : ∀ c : Char, toLowerRune tbl (toLowerRune tbl c) = toLowerRune tbl c)
    (s : String) : translitLower tbl (translitLower tbl s) = translitLower tbl s := by
  have h : ∀ l : List Char,
      (((l.map (toLowerRune tbl)).map translitRune).map (toLowerRune tbl)).map translitRune
        = (l.map (toLowerRune tbl)).map translitRune := by
    intro l
    induction l with
    | nil => rfl
    | cons c cs ih => simp only [List.map_cons, ih, foldRune_idem tbl hidem]
  exact congrArg String.mk (h s.data)

theorem fold_eq_of_forall₂ (tbl : Char → Char) (l₁ l₂ : List Char)
    (h : List.Forall₂
      (fun c d => translitRune (toLowerRune tbl c) = translitRune (toLowerRune tbl d))
      l₁ l₂) :
    (l₁.map (toLowerRune tbl)).map translitRune
      = (l₂.map (toLowerRune tbl)).map translitRune := by
  induction h with
  | nil => rfl
  | cons hcd _ ih => simp only [List.map_cons, hcd, ih]

/-! ## Lemmas on the Unicode mappings -/

theorem lowerRuns_checked :
    lowerRuns.all (fun r => runOk r && lowerRuns.all (fun r2 => runsApart r r2)) = true := by
  decide!

theorem lookupRuns_cases (n : Nat) (runs : List CaseRun) :
    lookupRuns n runs = n ∨
      ∃ r ∈ runs, r.1 ≤ n ∧ n ≤ r.2.1 ∧ (n - r.1) % r.2.2.1 = 0 ∧
        lookupRuns n runs = r.2.2.2 + (n - r.1) := by
  induction runs with
  | nil => exact Or.inl rfl
  | cons r rest ih =>
    obtain ⟨lo, hi, step, target⟩ := r
    unfold lookupRuns
    by_cases h : lo ≤ n ∧ n ≤ hi ∧ (n - lo) % step = 0
    · rw [if_pos h]
      exact Or.inr ⟨(lo, hi, step, target), by simp, h.1, h.2.1, h.2.2, rfl⟩
    · rw [if_neg h]
      rcases ih with h0 | ⟨r, hr, h1, h2, h3, h4⟩
      · exact Or.inl h0
      · exact Or.inr ⟨r, by simp [hr], h1, h2, h3, h4⟩

theorem lookupRuns_fixed (m : Nat) (runs : List CaseRun)
    (h : ∀ r ∈ runs, ¬ (r.1 ≤ m ∧ m ≤ r.2.1 ∧ (m - r.1) % r.2.2.1 = 0)) :
    lookupRuns m runs = m := by
  induction runs with
  | nil => rfl
  | cons r rest ih =>
    obtain ⟨lo, hi, step, target⟩ := r
    unfold lookupRuns
    rw [if_neg (h (lo, hi, step, target) (by simp))]
    exact ih (fun r hr => h r (by simp [hr]))

theorem runsApart_sound (r r2 : CaseRun) (h : runsApart r r2 = true) (n : Nat)
    (h1 : r.1 ≤ n) (h2 : n ≤ r.2.1) (h3 : (n - r.1) % r.2.2.1 = 0) :
    ¬ (r2.1 ≤ r.2.2.2 + (n - r.1) ∧ r.2.2.2 + (n - r.1) ≤ r2.2.1 ∧
      (r.2.2.2 + (n - r.1) - r2.1) % r2.2.2.1 = 0) := by
  obtain ⟨lo, hi, step, target⟩ := r
  obtain ⟨lo2, hi2, step2, target2⟩ := r2
  simp only [runsApart, Bool.or_eq_true, Bool.and_eq_true, decide_eq_true_eq] at h
  simp only at h1 h2 h3 ⊢
  rintro ⟨g1, g2, g3⟩
  rcases h with (h | h) | ⟨⟨hs2, hs⟩, hp⟩
  · omega
  · omega
  · subst hs2
    rcases hs with hs | hs
    · subst hs
      omega
    · omega

theorem lookupRuns_image (n : Nat) (hn : n.isValidChar) (h127 : 127 < n) :
    (lookupRuns n lowerRuns).isValidChar ∧
    (lookupRuns n lowerRuns ≤ 127 →
      ¬ (65 ≤ lookupRuns n lowerRuns ∧ lookupRuns n lowerRuns ≤ 90)) ∧
    lookupRuns (lookupRuns n lowerRuns) lowerRuns = lookupRuns n lowerRuns := by
  rcases lookupRuns_cases n lowerRuns with h0 | ⟨r, hr, h1, h2, h3, h4⟩
  · rw [h0]
    exact ⟨hn, fun h => by omega, h0⟩
  · have hall := lowerRuns_checked
    rw [List.all_eq_true] at hall
    have hr' := hall r hr
    rw [Bool.and_eq_true, List.all_eq_true] at hr'
    obtain ⟨hok, hap⟩ := hr'
    rw [h4]
    obtain ⟨lo, hi, step, target⟩ := r
    simp only [runOk, Bool.or_eq_true, Bool.and_eq_true, decide_eq_true_eq] at hok
    simp only at h1 h2 h3 h4 hok ⊢
    refine ⟨?_, ?_, ?_⟩
    · unfold Nat.isValidChar
      omega
    · omega
    · apply lookupRuns_fixed
      intro r2 hr2
      exact runsApart_sound (lo, hi, step, target) r2 (hap r2 hr2) n h1 h2 h3

theorem toNat_unicodeLower (c : Char) (h : 127 < c.toNat) :
    (unicodeLower c).toNat = lookupRuns c.toNat lowerRuns :=
  toNat_ofNat_valid _ (lookupRuns_image c.toNat c.valid h).1

theorem unicodeLower_idem (c : Char) :
    toLowerRune unicodeLower (toLowerRune unicodeLower c) = toLowerRune unicodeLower c := by
  by_cases h : c.toNat ≤ 127
  · by_cases hu : 65 ≤ c.toNat ∧ c.toNat ≤ 90
    · have e : toLowerRune unicodeLower c = Char.ofNat (c.toNat + 32) := by
        unfold toLowerRune
        rw [if_pos h, if_pos hu]
      have ht : (Char.ofNat (c.toNat + 32)).toNat = c.toNat + 32 :=
        toNat_ofNat_valid _ (by unfold Nat.isValidChar; omega)
      rw [e]
      exact toLowerRune_low _ _ (by omega) (by omega)
    · rw [toLowerRune_low _ c h hu, toLowerRune_low _ c h hu]
  · rw [toLowerRune_high _ c h]
    have h127 : 127 < c.toNat := by omega
    obtain ⟨_, ha, hf⟩ := lookupRuns_image c.toNat c.valid h127
    have ht := toNat_unicodeLower c h127
    by_cases h2 : (unicodeLower c).toNat ≤ 127
    · apply toLowerRune_low _ _ h2
      rw [ht]
      rw [ht] at h2
      exact ha h2
    · rw [toLowerRune_high _ _ h2]
      apply char_eq_of_toNat
      rw [toNat_unicodeLower _ (by omega), ht, hf]

/-- C16: for every case table for which `unicode.ToLower` is idempotent and leaves ғ, ҳ,
қ, ў as they are (they are lower-case letters), `translitLower` is idempotent, so
`okedQosh (translitLower s) = okedQosh s`; two names whose runes agree after lower-casing
and transliteration get the same code, a rune and its lower-case form are treated alike,
ғ, ҳ, қ, ў are treated as g, h, q, o, and `GAZ`, `gaz` and `ғaz` all give 350. -/
theorem okedQosh_translit_invariant (tbl : Char → Char)
    (hidem : ∀ c : Char, toLowerRune tbl (toLowerRune tbl c) = toLowerRune tbl c)
    (hfix : tbl 'ғ' = 'ғ' ∧ tbl 'ҳ' = 'ҳ' ∧ tbl 'қ' = 'қ' ∧ tbl 'ў' = 'ў')
    (s : String) :
    translitLower tbl (translitLower tbl s) = translitLower tbl s ∧
    okedQosh tbl (translitLower tbl s) = okedQosh tbl s ∧
    (∀ t : String,
      List.Forall₂
        (fun c d => translitRune (toLowerRune tbl c) = translitRune (toLowerRune tbl d))
        s.data t.data → okedQosh tbl t = okedQosh tbl s) ∧
    (∀ c : Char,
      translitRune (toLowerRune tbl (toLowerRune tbl c)) = translitRune (toLowerRune tbl c)) ∧
    (translitRune (toLowerRune tbl 'G') = translitRune (toLowerRune tbl 'g') ∧
      translitRune (toLowerRune tbl 'ғ') = translitRune (toLowerRune tbl 'g') ∧
      translitRune (toLowerRune tbl 'ҳ') = translitRune (toLowerRune tbl 'h') ∧
      translitRune (toLowerRune tbl 'қ') = translitRune (toLowerRune tbl 'q') ∧
      translitRune (toLowerRune tbl 'ў') = translitRune (toLowerRune tbl 'o')) ∧
    okedQosh tbl "GAZ" = 350 ∧ okedQosh tbl "gaz" = 350 ∧ okedQosh tbl "ғaz" = 350 := by
  obtain ⟨f1, f2, f3, f4⟩ := hfix
  have e1 : toLowerRune tbl 'ғ' = 'ғ' := by
    rw [toLowerRune_high tbl _ (by decide), f1]
  have e2 : toLowerRune tbl 'ҳ' = 'ҳ' := by
    rw [toLowerRune_high tbl _ (by decide), f2]
  have e3 : toLowerRune tbl 'қ' = 'қ' := by
    rw [toLowerRune_high tbl _ (by decide), f3]
  have e4 : toLowerRune tbl 'ў' = 'ў' := by
    rw [toLowerRune_high tbl _ (by decide), f4]
  have hg : toLowerRune tbl 'g' = 'g' := toLowerRune_low tbl _ (by decide) (by decide)
  have hh : toLowerRune tbl 'h' = 'h' := toLowerRune_low tbl _ (by decide) (by decide)
  have hq : toLowerRune tbl 'q' = 'q' := toLowerRune_low tbl _ (by decide) (by decide)
  have ho : toLowerRune tbl 'o' = 'o' := toLowerRune_low tbl _ (by decide) (by decide)
  have hG : toLowerRune tbl 'G' = 'g' := by
    rw [toLowerRune_ascii tbl (fun c => c) 'G' (by decide)]
    decide
  have ha : toLowerRune tbl 'a' = 'a' := toLowerRune_low tbl _ (by decide) (by decide)
  have hz : toLowerRune tbl 'z' = 'z' := toLowerRune_low tbl _ (by decide) (by decide)
  refine ⟨translitLower_idem tbl hidem s, ?_, ?_, ?_, ?_, ?_, ?_, ?_⟩
  · unfold okedQosh
    rw [translitLower_idem tbl hidem]
  · intro t h
    unfold okedQosh
    have : translitLower tbl t = translitLower tbl s := by
      unfold translitLower
      rw [fold_eq_of_forall₂ tbl _ _ h]
    rw [this]
  · intro c
    rw [hidem]
  · rw [hG, hg, hh, hq, ho, e1, e2, e3, e4]
    decide
  · rw [okedQosh_ascii tbl (fun c => c) _ (by decide)]
    decide
  · rw [okedQosh_ascii tbl (fun c => c) _ (by decide)]
    decide
  · have ht : translitLower tbl "ғaz" = "gaz" := by
      unfold translitLower
      simp only [List.map_cons, List.map_nil, e1, ha, hz]
      decide
    unfold okedQosh
    rw [ht]
    decide

/-- C16 for the Unicode mappings: they satisfy the two conditions, so the identities hold
for every name; capitals, Ғ Ҳ Қ Ў and the runes whose lower-case form lies in another
block (U+0130, U+212A) are folded as the program folds them. Only ғ, ҳ, қ, ў are
transliterated: `ҒАЗ` written with Cyrillic а and з does not contain `gaz`. -/
theorem okedQosh_translit_invariant_witness :
    (∀ c : Char,
      toLowerRune unicodeLower (toLowerRune unicodeLower c) = toLowerRune unicodeLower c) ∧
    (unicodeLower 'ғ' = 'ғ' ∧ unicodeLower 'ҳ' = 'ҳ' ∧ unicodeLower 'қ' = 'қ' ∧
      unicodeLower 'ў' = 'ў') ∧
    (∀ s : String,
      translitLower unicodeLower (translitLower unicodeLower s) = translitLower unicodeLower s ∧
      okedQosh unicodeLower (translitLower unicodeLower s) = okedQosh unicodeLower s) ∧
    okedQosh unicodeLower (translitLower unicodeLower "ҒAZ KİNO")
      = okedQosh unicodeLower "ҒAZ KİNO" ∧
    translitLower unicodeLower "ҒAZ KİNO" = "gaz kino" ∧
    translitLower unicodeLower "ǴKŞΣİ" = "ǵkşσi" ∧
    translitLower unicodeLower "ҒҲҚЎ" = "ghqo" ∧
    okedQosh unicodeLower "ҒAZ" = 350 ∧ okedQosh unicodeLower "ҒАЗ" = 960 :=
  ⟨unicodeLower_idem, by decide,
   fun s => ⟨(okedQosh_translit_invariant unicodeLower unicodeLower_idem (by decide) s).1,
     (okedQosh_translit_invariant unicodeLower unicodeLower_idem (by decide) s).2.1⟩,
   (okedQosh_translit_invariant unicodeLower unicodeLower_idem (by decide) "ҒAZ KİNO").2.1,
   by decide, by decide, by decide, by decide, by decide⟩

/-! ## Lemmas on the pass-2 keys -/

theorem mem_keys_iff_lookup {β : Type} (l : List (String × β)) (key : String) :
    key ∈ l.map Prod.fst ↔ List.lookup key l ≠ none := by
  induction l with
  | nil => simp
  | cons p rest ih =>
    obtain ⟨k, v⟩ := p
    rw [lookup_cons_ite]
    by_cases h : key = k
    · simp [h]
    · simp only [List.map_cons, List.mem_cons, h, false_or, if_false]
      exact ih

theorem lookup_groupSum_ne_none (rows : List rec) (groupKeys : List String)
    (valKey key : String) :
    (groupSum rows groupKeys valKey).lookup key ≠ none ↔
      ∃ m ∈ rows, specKey m groupKeys = some key := by
  unfold groupSum
  rw [lookup_foldl_groupStep, List.lookup, accum_none]
  constructor
  · intro h
    by_cases hp : producers rows groupKeys key = []
    · simp [hp] at h
    · obtain ⟨m, hm⟩ := List.exists_mem_of_ne_nil _ hp
      have := List.mem_filter.mp hm
      exact ⟨m, this.1, by simpa using this.2⟩
  · rintro ⟨m, hm, hs⟩
    have hmem : m ∈ producers rows groupKeys key :=
      List.mem_filter.mpr ⟨hm, by simpa using hs⟩
    have hp : producers rows groupKeys key ≠ [] := List.ne_nil_of_mem hmem
    simp [hp]

theorem specKey_single (m : rec) (kcol : String) :
    specKey m [kcol] =
      if sprintV (m.lookup kcol) = "" then none else some (sprintV (m.lookup kcol)) := by
  unfold specKey
  by_cases h : sprintV (m.lookup kcol) = ""
  · simp [h]
  · have hc : ([kcol].all (fun k => sprintV (m.lookup k) != "")) = true := by
      simp [h]
    rw [if_pos hc, if_neg h]
    rfl

theorem specKey_pair (m : rec) (a kcol : String) (ha : sprintV (m.lookup a) ≠ "") :
    specKey m [a, kcol] =
      if sprintV (m.lookup kcol) = "" then none
      else some (sprintV (m.lookup a) ++ "|" ++ sprintV (m.lookup kcol)) := by
  unfold specKey
  by_cases h : sprintV (m.lookup kcol) = ""
  · simp [h]
  · have hc : ([a, kcol].all (fun k => sprintV (m.lookup k) != "")) = true := by
      simp [ha, h]
    rw [if_pos hc, if_neg h]
    rfl

theorem flag_cases (m : rec) :
    sprintV ((withNs m).lookup "ns") = "41" ∨ sprintV ((withNs m).lookup "ns") = "42" := by
  rw [sprintV_withNs_ns]
  split
  · exact Or.inr rfl
  · exact Or.inl rfl

theorem append_bar_inj (f f' k k' : String) (hf : '|' ∉ f.data) (hf' : '|' ∉ f'.data)
    (h : f ++ "|" ++ k = f' ++ "|" ++ k') : f = f' ∧ k = k' := by
  have h1 : splitFirst (f ++ "|" ++ k).data = some (f.data, k.data) :=
    (splitFirst_eq_some _ _ _).mpr ⟨by simp, hf⟩
  have h2 : splitFirst (f' ++ "|" ++ k').data = some (f'.data, k'.data) :=
    (splitFirst_eq_some _ _ _).mpr ⟨by simp, hf'⟩
  rw [h, h2] at h1
  simp only [Option.some.injEq, Prod.mk.injEq] at h1
  exact ⟨String.ext h1.1.symm, String.ext h1.2.symm⟩

theorem pass2_key_form (all : List rec) (kcol vcol : String) (kv : String × F64)
    (hkv : kv ∈ pass2 all kcol vcol) :
    ∃ (f kk : String), (f = "41" ∨ f = "42") ∧ kv.1 = f ++ "|" ++ kk := by
  have hmem : kv.1 ∈ (pass2 all kcol vcol).map Prod.fst := List.mem_map_of_mem _ hkv
  rw [mem_keys_iff_lookup] at hmem
  unfold pass2 at hmem
  obtain ⟨m', hm', hs⟩ := (lookup_groupSum_ne_none _ _ _ _).mp hmem
  obtain ⟨m, _, rfl⟩ := List.mem_map.mp hm'
  have hflag := flag_cases m
  have hne : sprintV ((withNs m).lookup "ns") ≠ "" := by
    rcases hflag with h | h <;> rw [h] <;> decide
  rw [specKey_pair _ _ _ hne] at hs
  split at hs
  · cases hs
  · simp only [Option.some.injEq] at hs
    exact ⟨_, _, hflag, hs.symm⟩

theorem length_collect2 (l : Buckets)
    (h : ∀ kv ∈ l, ∃ (f kk : String), (f = "41" ∨ f = "42") ∧ kv.1 = f ++ "|" ++ kk) :
    (collect2 l).length = l.length := by
  induction l with
  | nil => rfl
  | cons kv rest ih =>
    obtain ⟨f, kk, hf, hkey⟩ := h kv (by simp)
    have hbar : '|' ∉ f.data := by
      rcases hf with rfl | rfl <;> decide
    have hs : splitFirst kv.1.data = some (f.data, kk.data) :=
      (splitFirst_eq_some _ _ _).mpr ⟨by rw [hkey]; simp, hbar⟩
    unfold collect2 at *
    simp only [List.filterMap_cons, hs, Option.map_some', List.length_cons]
    rw [ih (fun kv' hkv' => h kv' (by simp [hkv']))]

/-- C20: for the flags 41 and 42 and every grouping value `k`, one containing `|`
included, splitting `flag|k` at the first `|` gives back `(flag, k)`, and `Atoi` of the
flag text gives back the flag. So every key of the pass-2 map has this form and none is
dropped by the length check, two different (flag, k) pairs never give the same key, and
the flag of an output row is the flag stored on the copy of the record. -/
theorem pass2_key_round_trip (k : String) :
    splitFirst ("41" ++ "|" ++ k).data = some ("41".data, k.data) ∧
    splitFirst ("42" ++ "|" ++ k).data = some ("42".data, k.data) ∧
    (atoi "41").1 = 41 ∧ (atoi "42").1 = 42 ∧
    (∀ f f' k' : String, (f = "41" ∨ f = "42") → (f' = "41" ∨ f' = "42") →
      f ++ "|" ++ k = f' ++ "|" ++ k' → f = f' ∧ k = k') ∧
    (∀ (all : List rec) (kcol vcol : String), ∀ kv ∈ pass2 all kcol vcol,
      ∃ (f kk : String), (f = "41" ∨ f = "42") ∧ kv.1 = f ++ "|" ++ kk ∧
        splitFirst kv.1.data = some (f.data, kk.data)) ∧
    (∀ (all : List rec) (kcol vcol : String),
      (collect2 (pass2 all kcol vcol)).length = (pass2 all kcol vcol).length) ∧
    (∀ m : rec, (withNs m).lookup "ns" =
      some (.int ((atoi (sprintV ((withNs m).lookup "ns"))).1))) := by
  have hb1 : '|' ∉ "41".data := by decide
  have hb2 : '|' ∉ "42".data := by decide
  refine ⟨?_, ?_, by decide, by decide, ?_, ?_, ?_, ?_⟩
  · exact (splitFirst_eq_some _ _ _).mpr ⟨by simp, hb1⟩
  · exact (splitFirst_eq_some _ _ _).mpr ⟨by simp, hb2⟩
  · intro f f' k' hf hf' h
    have hbf : '|' ∉ f.data := by rcases hf with rfl | rfl <;> decide
    have hbf' : '|' ∉ f'.data := by rcases hf' with rfl | rfl <;> decide
    exact append_bar_inj f f' k k' hbf hbf' h
  · intro all kcol vcol kv hkv
    obtain ⟨f, kk, hf, hkey⟩ := pass2_key_form all kcol vcol kv hkv
    have hbar : '|' ∉ f.data := by rcases hf with rfl | rfl <;> decide
    exact ⟨f, kk, hf, hkey, (splitFirst_eq_some _ _ _).mpr ⟨by rw [hkey]; simp, hbar⟩⟩
  · intro all kcol vcol
    exact length_collect2 _ (pass2_key_form all kcol vcol)
  · intro m
    have hl : (withNs m).lookup "ns" = some (.int
        (if sprintV (m.lookup "oked") = "350" ∨ sprintV (m.lookup "oked") = "360" then 42
         else 41)) := by
      unfold withNs
      rw [lookup_set, if_pos rfl]
    rw [hl]
    split <;> decide

/-! ## Lemmas on `groupSumWith` -/

theorem bucketAddWith_F64 (sums : Buckets) (key : String) (x : F64) :
    bucketAddWith F64.add F64.zero sums key x = bucketAdd sums key x := by
  induction sums with
  | nil => rfl
  | cons p rest ih =>
    obtain ⟨k, v⟩ := p
    simp only [bucketAddWith, bucketAdd, ih]

theorem groupSum_eq_groupSumWith (rows : List rec) (groupKeys : List String)
    (valKey : String) :
    groupSum rows groupKeys valKey =
      groupSumWith F64.add F64.zero (fun m => toFloat m valKey) rows groupKeys := by
  unfold groupSum groupSumWith
  congr 1
  funext sums m
  unfold groupStep groupStepWith
  cases keyParts m groupKeys with
  | none => rfl
  | some parts => exact (bucketAddWith_F64 _ _ _).symm

theorem bucketOr_bucketAddWith {A : Type} [AddCommMonoid A] (sums : List (String × A))
    (key key' : String) (x : A) :
    bucketOr 0 (bucketAddWith (· + ·) 0 sums key x) key' =
      if key' = key then bucketOr 0 sums key + x else bucketOr 0 sums key' := by
  induction sums with
  | nil =>
    by_cases h : key' = key
    · simp [bucketOr, bucketAddWith, lookup_cons_ite, h]
    · simp [bucketOr, bucketAddWith, lookup_cons_ite, h]
  | cons p rest ih =>
    obtain ⟨k, v⟩ := p
    unfold bucketOr at ih ⊢
    by_cases hk : k = key
    · subst hk
      by_cases h : key' = k
      · simp [bucketAddWith, lookup_cons_ite, h]
      · simp [bucketAddWith, lookup_cons_ite, h]
    · by_cases h : key' = key
      · subst h
        have hk' : ¬ key' = k := fun e => hk e.symm
        simp only [bucketAddWith, hk, if_false, lookup_cons_ite, hk', if_true] at ih ⊢
        exact ih
      · by_cases h2 : key' = k
        · simp [bucketAddWith, lookup_cons_ite, hk, h, h2]
        · simp only [bucketAddWith, hk, if_false, lookup_cons_ite, h2, h] at ih ⊢
          exact ih

theorem groupStepWith_eq {A : Type} (add : A → A → A) (zero : A) (val : rec → A)
    (groupKeys : List String) (sums : List (String × A)) (m : rec) :
    groupStepWith add zero val groupKeys sums m =
      match specKey m groupKeys with
      | none => sums
      | some key => bucketAddWith add zero sums key (val m) := by
  unfold groupStepWith
  rw [← keyParts_eq_specKey]
  cases keyParts m groupKeys <;> rfl

theorem bucketOr_foldl_groupStepWith {A : Type} [AddCommMonoid A] (val : rec → A)
    (groupKeys : List String) (key : String) (rows : List rec) :
    ∀ acc : List (String × A),
      bucketOr 0 (rows.foldl (groupStepWith (· + ·) 0 val groupKeys) acc) key =
        bucketOr 0 acc key + ((producers rows groupKeys key).map val).sum := by
  induction rows with
  | nil => intro acc; simp [producers]
  | cons m rest ih =>
    intro acc
    simp only [List.foldl_cons]
    rw [ih, groupStepWith_eq]
    cases hs : specKey m groupKeys with
    | none => simp [producers, List.filter_cons, hs]
    | some k0 =>
      simp only [bucketOr_bucketAddWith]
      by_cases hkey : key = k0
      · subst hkey
        simp [producers, List.filter_cons, hs, add_assoc]
      · have hne : ¬ k0 = key := fun e => hkey e.symm
        simp [producers, List.filter_cons, hs, hkey, hne]

theorem bucketOr_groupSumWith {A : Type} [AddCommMonoid A] (val : rec → A)
    (rows : List rec) (groupKeys : List String) (key : String) :
    bucketOr 0 (groupSumWith (· + ·) 0 val rows groupKeys) key =
      ((producers rows groupKeys key).map val).sum := by
  unfold groupSumWith
  rw [bucketOr_foldl_groupStepWith]
  simp [bucketOr]

theorem toFloat_withNs (m : rec) (vcol : String) (hv : vcol ≠ "ns") :
    toFloat (withNs m) vcol = toFloat m vcol := by
  unfold toFloat
  rw [lookup_withNs_ne m vcol hv]

theorem specKey_withNs_iff (m : rec) (kcol k f : String) (hk : kcol ≠ "ns")
    (hf : f = "41" ∨ f = "42") :
    specKey (withNs m) ["ns", kcol] = some (f ++ "|" ++ k) ↔
      specKey m [kcol] = some k ∧ sprintV ((withNs m).lookup "ns") = f := by
  have hflag := flag_cases m
  have hne : sprintV ((withNs m).lookup "ns") ≠ "" := by
    rcases hflag with h | h <;> rw [h] <;> decide
  have hb1 : '|' ∉ (sprintV ((withNs m).lookup "ns")).data := by
    rcases hflag with h | h <;> rw [h] <;> decide
  have hb2 : '|' ∉ f.data := by rcases hf with rfl | rfl <;> decide
  rw [specKey_pair _ _ _ hne, specKey_single, lookup_withNs_ne m kcol hk]
  by_cases he : sprintV (m.lookup kcol) = ""
  · simp [he]
  · simp only [he, if_false, Option.some.injEq]
    constructor
    · intro h
      have := append_bar_inj _ _ _ _ hb1 hb2 h
      exact ⟨this.2, this.1⟩
    · rintro ⟨h1, h2⟩
      rw [h1, h2]

theorem sum_split_by_flag {A : Type} [AddCommMonoid A] (val : rec → A) (kcol k : String)
    (hk : kcol ≠ "ns") (hval : ∀ m : rec, val (withNs m) = val m) (all : List rec) :
    ((producers all [kcol] k).map val).sum =
      ((producers (all.map withNs) ["ns", kcol] ("41" ++ "|" ++ k)).map val).sum +
      ((producers (all.map withNs) ["ns", kcol] ("42" ++ "|" ++ k)).map val).sum := by
  induction all with
  | nil => simp [producers]
  | cons m rest ih =>
    have i41 := specKey_withNs_iff m kcol k "41" hk (Or.inl rfl)
    have i42 := specKey_withNs_iff m kcol k "42" hk (Or.inr rfl)
    unfold producers at ih ⊢
    simp only [List.map_cons, List.filter_cons]
    by_cases hs : specKey m [kcol] = some k
    · rcases flag_cases m with hfl | hfl
      · have h41 : specKey (withNs m) ["ns", kcol] = some ("41" ++ "|" ++ k) :=
          i41.mpr ⟨hs, hfl⟩
        have h42 : ¬ specKey (withNs m) ["ns", kcol] = some ("42" ++ "|" ++ k) := by
          intro h
          have := (i42.mp h).2
          rw [hfl] at this
          exact absurd this (by decide)
        have d1 := decide_eq_true hs
        have d41 := decide_eq_true h41
        have d42 := decide_eq_false h42
        simp only [d1, d41, d42, if_true, List.map_cons, List.sum_cons, hval, ih,
          Bool.false_eq_true, if_false]
        rw [add_assoc]
      · have h42 : specKey (withNs m) ["ns", kcol] = some ("42" ++ "|" ++ k) :=
          i42.mpr ⟨hs, hfl⟩
        have h41 : ¬ specKey (withNs m) ["ns", kcol] = some ("41" ++ "|" ++ k) := by
          intro h
          have := (i41.mp h).2
          rw [hfl] at this
          exact absurd this (by decide)
        have d1 := decide_eq_true hs
        have d41 := decide_eq_false h41
        have d42 := decide_eq_true h42
        simp only [d1, d41, d42, if_true, List.map_cons, List.sum_cons, hval, ih,
          Bool.false_eq_true, if_false]
        rw [add_left_comm]
    · have h41 : ¬ specKey (withNs m) ["ns", kcol] = some ("41" ++ "|" ++ k) :=
        fun h => hs (i41.mp h).1
      have h42 : ¬ specKey (withNs m) ["ns", kcol] = some ("42" ++ "|" ++ k) :=
        fun h => hs (i42.mp h).1
      have d1 := decide_eq_false hs
      have d41 := decide_eq_false h41
      have d42 := decide_eq_false h42
      simp only [d1, d41, d42, Bool.false_eq_true, if_false, ih]

/-- C19 as stated fails for the value column `ns`: the per-pass copy overwrites `ns` with
the native integer flag, which `toFloat` does not accept, so pass 2 sums 0 where pass 1
sums the record's own `ns` value (here 5 against 0 + 0, in exact arithmetic). -/
theorem pass2_value_column_ns :
    ¬ (bucketOr 0 (groupSumWith (· + ·) (0 : ℚ) (fun m => F64.exact (toFloat m "ns"))
          [[("g", .str "A"), ("ns", .str "5")]] ["g"]) "A" =
        bucketOr 0 (groupSumWith (· + ·) (0 : ℚ) (fun m => F64.exact (toFloat m "ns"))
          ([[("g", .str "A"), ("ns", .str "5")]].map withNs) ["ns", "g"]) ("41|" ++ "A") +
        bucketOr 0 (groupSumWith (· + ·) (0 : ℚ) (fun m => F64.exact (toFloat m "ns"))
          ([[("g", .str "A"), ("ns", .str "5")]].map withNs) ["ns", "g"]) ("42|" ++ "A")) ∧
    pass1 [[("g", .str "A"), ("ns", .str "5")]] "g" "ns" = [("A", F64.ofNat 5)] ∧
    pass2 [[("g", .str "A"), ("ns", .str "5")]] "g" "ns" = [("41|A", F64.zero)] := by
  refine ⟨by decide!, by decide, by decide⟩

/-- C19, amended: for a grouping column and a value column both other than `ns`, and sums
taken in exact arithmetic (any commutative addition, `ex` giving the exact value of a
`float64`), the pass-1 bucket of `k` is the sum of the pass-2 buckets of `41|k` and
`42|k`, an absent bucket counting as 0; and `k` is a pass-1 key exactly when `41|k` or
`42|k` is a pass-2 key. `groupSum` itself is the same loop with `float64` addition. -/
theorem pass2_refines_pass1 {A : Type} [AddCommMonoid A] (ex : F64 → A) (all : List rec)
    (kcol vcol k : String) (hk : kcol ≠ "ns") (hv : vcol ≠ "ns") :
    bucketOr 0 (groupSumWith (· + ·) 0 (fun m => ex (toFloat m vcol)) all [kcol]) k =
      bucketOr 0 (groupSumWith (· + ·) 0 (fun m => ex (toFloat m vcol))
        (all.map withNs) ["ns", kcol]) ("41|" ++ k) +
      bucketOr 0 (groupSumWith (· + ·) 0 (fun m => ex (toFloat m vcol))
        (all.map withNs) ["ns", kcol]) ("42|" ++ k) ∧
    ((pass1 all kcol vcol).lookup k ≠ none ↔
      (pass2 all kcol vcol).lookup ("41|" ++ k) ≠ none ∨
      (pass2 all kcol vcol).lookup ("42|" ++ k) ≠ none) ∧
    pass1 all kcol vcol =
      groupSumWith F64.add F64.zero (fun m => toFloat m vcol) all [kcol] ∧
    pass2 all kcol vcol =
      groupSumWith F64.add F64.zero (fun m => toFloat m vcol) (all.map withNs) ["ns", kcol] := by
  have e41 : ("41|" : String) ++ k = "41" ++ "|" ++ k := by
    rw [show ("41|" : String) = "41" ++ "|" by decide]
  have e42 : ("42|" : String) ++ k = "42" ++ "|" ++ k := by
    rw [show ("42|" : String) = "42" ++ "|" by decide]
  refine ⟨?_, ?_, groupSum_eq_groupSumWith _ _ _, groupSum_eq_groupSumWith _ _ _⟩
  · rw [bucketOr_groupSumWith, bucketOr_groupSumWith, bucketOr_groupSumWith, e41, e42]
    exact sum_split_by_flag (fun m => ex (toFloat m vcol)) kcol k hk
      (fun m => by simp only [toFloat_withNs m vcol hv]) all
  · unfold pass1 pass2
    rw [lookup_groupSum_ne_none, lookup_groupSum_ne_none, lookup_groupSum_ne_none, e41, e42]
    constructor
    · rintro ⟨m, hm, hs⟩
      rcases flag_cases m with hfl | hfl
      · exact Or.inl ⟨withNs m, List.mem_map_of_mem _ hm,
          (specKey_withNs_iff m kcol k "41" hk (Or.inl rfl)).mpr ⟨hs, hfl⟩⟩
      · exact Or.inr ⟨withNs m, List.mem_map_of_mem _ hm,
          (specKey_withNs_iff m kcol k "42" hk (Or.inr rfl)).mpr ⟨hs, hfl⟩⟩
    · rintro (⟨m', hm', hs⟩ | ⟨m', hm', hs⟩)
      · obtain ⟨m, hm, rfl⟩ := List.mem_map.mp hm'
        exact ⟨m, hm, ((specKey_withNs_iff m kcol k "41" hk (Or.inl rfl)).mp hs).1⟩
      · obtain ⟨m, hm, rfl⟩ := List.mem_map.mp hm'
        exact ⟨m, hm, ((specKey_withNs_iff m kcol k "42" hk (Or.inr rfl)).mp hs).1⟩

/-- C19 at concrete records: three records of one group, two of them under flag 41 and one
(a gas supplier) under flag 42, summed as rational numbers. -/
theorem pass2_refines_pass1_witness :
    bucketOr 0 (groupSumWith (· + ·) (0 : ℚ) (fun m => F64.exact (toFloat m "v"))
        [[("g", .str "A"), ("v", .str "0.1")], [("g", .str "A"), ("oked", .str "350"),
          ("v", .str "0.2")], [("g", .str "A"), ("v", .str "0.3")]] ["g"]) "A" =
      bucketOr 0 (groupSumWith (· + ·) (0 : ℚ) (fun m => F64.exact (toFloat m "v"))
        ([[("g", .str "A"), ("v", .str "0.1")], [("g", .str "A"), ("oked", .str "350"),
          ("v", .str "0.2")], [("g", .str "A"), ("v", .str "0.3")]].map withNs)
        ["ns", "g"]) ("41|" ++ "A") +
      bucketOr 0 (groupSumWith (· + ·) (0 : ℚ) (fun m => F64.exact (toFloat m "v"))
        ([[("g", .str "A"), ("v", .str "0.1")], [("g", .str "A"), ("oked", .str "350"),
          ("v", .str "0.2")], [("g", .str "A"), ("v", .str "0.3")]].map withNs)
        ["ns", "g"]) ("42|" ++ "A") :=
  (pass2_refines_pass1 F64.exact
    [[("g", .str "A"), ("v", .str "0.1")], [("g", .str "A"), ("oked", .str "350"),
      ("v", .str "0.2")], [("g", .str "A"), ("v", .str "0.3")]] "g" "v" "A"
    (by decide) (by decide)).1

end Kadastr
